import Mathlib

/-!
# yaml-object-parser: the shape parser and its name registry

A shallow embedding of `yaml_object_parser.go` (package `yop`).

* Package-level variables (`maxDepthLimit`, `validObjectNames`) are the fields of
  `Globals`, passed explicitly.
* A `*Object` that the source mutates in place is passed in and handed back, together
  with the returned `error` (`none` is Go's `nil`), so that what a failed call leaves
  in the node is visible to the caller, as it is in Go.
* `[]byte` is `Bytes`, a list of characters (the input read as UTF-8 text).
* `encoding/json` is an external library.  Its grammar is the scanner `scan`, and what
  `json.Unmarshal` stores into the three target types the parser uses is `decode`;
  `unmarshal` is the two together.  The order in which `range` visits a Go map is not
  fixed by the language: it is the parameter `MapOrder`.
* A `json.RawMessage` handed to a recursive call is represented by what the library
  returns for it (`RawMessage`), so that the recursion of `parseObject` is structural.
  The scanner keeps with every value the text it was read from, and unmarshalling that
  text again gives the same outcome (`scan_childTexts`).
* `Level` and `maxDepthLimit` are Go `int`s; they are unbounded integers here, as a
  level can only grow by one per nesting of the input.
-/

namespace Yop

/-- A Go byte slice, read as text. -/
abbrev Bytes := List Char

/-! ## The external JSON library -/

/-- Errors of `encoding/json`: `*json.SyntaxError` and `*json.UnmarshalTypeError`
(with its `Value` and `Type` fields). -/
inductive JsonErr where
  | syntaxError
  | unmarshalTypeError (value : String) (goType : String)
deriving DecidableEq, Repr

/-- A JSON value as the library's scanner sees it.  Every array element and every
object member carries the exact text of its value, which is what a
`json.RawMessage` receives. -/
inductive JValue where
  | null
  | bool (b : Bool)
  | number
  | string (s : String)
  | array (elems : List (Bytes × JValue))
  | object (members : List (String × Bytes × JValue))
deriving Repr

/-- JSON insignificant whitespace. -/
def isSpace (c : Char) : Bool :=
  c = ' ' || c = '\t' || c = '\r' || c = '\n'

/-- Drop leading whitespace. -/
def skipSpace : Bytes → Bytes
  | [] => []
  | c :: cs => if isSpace c then skipSpace cs else c :: cs

/-- Consume the literal `lit` from the front of the input. -/
def expect : Bytes → Bytes → Option Bytes
  | [], cs => some cs
  | _ :: _, [] => none
  | l :: lit, c :: cs => if l = c then expect lit cs else none

/-- Value of a hexadecimal digit. -/
def hexVal (c : Char) : Option Nat :=
  if '0' ≤ c ∧ c ≤ '9' then some (c.toNat - 48)
  else if 'a' ≤ c ∧ c ≤ 'f' then some (c.toNat - 87)
  else if 'A' ≤ c ∧ c ≤ 'F' then some (c.toNat - 55)
  else none

/-- Value of the four hexadecimal digits of a `\u` escape. -/
def hex4 (a b c d : Char) : Option Nat :=
  match hexVal a, hexVal b, hexVal c, hexVal d with
  | some w, some x, some y, some z => some (((w * 16 + x) * 16 + y) * 16 + z)
  | _, _, _, _ => none

/-- The character of a one-letter escape. -/
def unescape (e : Char) : Option Char :=
  if e = '"' then some '"'
  else if e = '\\' then some '\\'
  else if e = '/' then some '/'
  else if e = 'b' then some (Char.ofNat 8)
  else if e = 'f' then some (Char.ofNat 12)
  else if e = 'n' then some '\n'
  else if e = 'r' then some '\r'
  else if e = 't' then some '\t'
  else none

/-- A piece of a string literal: a character, or the code unit of a `\u` escape. -/
inductive StrItem where
  | char (c : Char)
  | unit (n : Nat)
deriving DecidableEq, Repr

/-- Read the body of a string literal, after its opening quote, up to and including
the closing quote. -/
def scanStringItems : Bytes → Option (List StrItem × Bytes)
  | [] => none
  | c :: rest =>
    if c = '"' then some ([], rest)
    else if c = '\\' then
      match rest with
      | [] => none
      | e :: rest1 =>
        if e = 'u' then
          match rest1 with
          | h1 :: h2 :: h3 :: h4 :: rest2 =>
            match hex4 h1 h2 h3 h4, scanStringItems rest2 with
            | some n, some (items, out) => some (StrItem.unit n :: items, out)
            | _, _ => none
          | _ => none
        else
          match unescape e, scanStringItems rest1 with
          | some ch, some (items, out) => some (StrItem.char ch :: items, out)
          | _, _ => none
    else if c.toNat < 32 then none
    else
      match scanStringItems rest with
      | some (items, out) => some (StrItem.char c :: items, out)
      | none => none

/-- The rune of a lone `\u` escape: a surrogate half becomes U+FFFD. -/
def toRune (n : Nat) : Char :=
  if 0xD800 ≤ n ∧ n < 0xE000 then Char.ofNat 0xFFFD else Char.ofNat n

/-- Turn the pieces of a string literal into its characters, joining a high and a
low surrogate escape that follow each other.  `pending` is a `\u` code unit read
just before and not yet written. -/
def decodeItems : Option Nat → List StrItem → List Char
  | none, [] => []
  | some hi, [] => [toRune hi]
  | none, StrItem.char c :: rest => c :: decodeItems none rest
  | some hi, StrItem.char c :: rest => toRune hi :: c :: decodeItems none rest
  | none, StrItem.unit n :: rest => decodeItems (some n) rest
  | some hi, StrItem.unit lo :: rest =>
    if 0xD800 ≤ hi ∧ hi < 0xDC00 ∧ 0xDC00 ≤ lo ∧ lo < 0xE000 then
      Char.ofNat (0x10000 + (hi - 0xD800) * 0x400 + (lo - 0xDC00)) :: decodeItems none rest
    else toRune hi :: decodeItems (some lo) rest

/-- Read a string literal after its opening quote: the decoded string and the input
after the closing quote. -/
def scanString (cs : Bytes) : Option (String × Bytes) :=
  match scanStringItems cs with
  | some (items, out) => some (String.mk (decodeItems none items), out)
  | none => none

/-- Drop leading decimal digits. -/
def skipDigits : Bytes → Bytes
  | [] => []
  | c :: cs => if c.isDigit then skipDigits cs else c :: cs

/-- One or more decimal digits. -/
def digits1 : Bytes → Option Bytes
  | [] => none
  | c :: cs => if c.isDigit then some (skipDigits cs) else none

/-- The optional fraction of a number. -/
def scanFrac : Bytes → Option Bytes
  | [] => some []
  | c :: rest => if c = '.' then digits1 rest else some (c :: rest)

/-- The optional exponent of a number. -/
def scanExp : Bytes → Option Bytes
  | [] => some []
  | c :: rest =>
    if c = 'e' ∨ c = 'E' then
      match rest with
      | [] => none
      | s :: rest1 => if s = '+' ∨ s = '-' then digits1 rest1 else digits1 (s :: rest1)
    else some (c :: rest)

/-- The optional fraction and exponent of a number. -/
def scanFracExp (cs : Bytes) : Option Bytes :=
  match scanFrac cs with
  | none => none
  | some cs1 => scanExp cs1

/-- Read a number: the input after it. -/
def scanNumber : Bytes → Option Bytes
  | [] => none
  | c :: rest =>
    if c = '-' then
      match rest with
      | [] => none
      | d :: rest1 =>
        if d = '0' then scanFracExp rest1
        else if d.isDigit then scanFracExp (skipDigits rest1)
        else none
    else if c = '0' then scanFracExp rest
    else if c.isDigit then scanFracExp (skipDigits rest)
    else none

/-- The text consumed between the input `cs` and what is left of it, `out`. -/
def consumed (cs out : Bytes) : Bytes :=
  cs.take (cs.length - out.length)

/-- The scanner refuses more than this many open arrays and objects. -/
def maxNestingDepth : Nat := 10000

mutual
/-- Read one value from the front of the input (no leading whitespace), with `depth`
arrays and objects open around it. -/
def scanValue : Nat → Nat → Bytes → Option (JValue × Bytes)
  | 0, _, _ => none
  | fuel + 1, depth, cs =>
    match cs with
    | [] => none
    | c :: rest =>
      if c = '"' then
        match scanString rest with
        | some (s, out) => some (JValue.string s, out)
        | none => none
      else if c = '[' then
        if maxNestingDepth ≤ depth then none
        else
          match skipSpace rest with
          | [] => none
          | d :: rest1 =>
            if d = ']' then some (JValue.array [], rest1)
            else
              match scanElems fuel (depth + 1) (d :: rest1) with
              | some (elems, out) => some (JValue.array elems, out)
              | none => none
      else if c = '{' then
        if maxNestingDepth ≤ depth then none
        else
          match skipSpace rest with
          | [] => none
          | d :: rest1 =>
            if d = '}' then some (JValue.object [], rest1)
            else
              match scanMembers fuel (depth + 1) (d :: rest1) with
              | some (members, out) => some (JValue.object members, out)
              | none => none
      else if c = 'n' then
        match expect ['u', 'l', 'l'] rest with
        | some out => some (JValue.null, out)
        | none => none
      else if c = 't' then
        match expect ['r', 'u', 'e'] rest with
        | some out => some (JValue.bool true, out)
        | none => none
      else if c = 'f' then
        match expect ['a', 'l', 's', 'e'] rest with
        | some out => some (JValue.bool false, out)
        | none => none
      else
        match scanNumber cs with
        | some out => some (JValue.number, out)
        | none => none
/-- Read the elements of an array, from the first character of an element to the
closing bracket. -/
def scanElems : Nat → Nat → Bytes → Option (List (Bytes × JValue) × Bytes)
  | 0, _, _ => none
  | fuel + 1, depth, cs =>
    match scanValue fuel depth cs with
    | none => none
    | some (v, out) =>
      match skipSpace out with
      | [] => none
      | d :: rest =>
        if d = ']' then some ([(consumed cs out, v)], rest)
        else if d = ',' then
          match scanElems fuel depth (skipSpace rest) with
          | some (elems, out1) => some ((consumed cs out, v) :: elems, out1)
          | none => none
        else none
/-- Read the members of an object, from the opening quote of a key to the closing
brace. -/
def scanMembers : Nat → Nat → Bytes → Option (List (String × Bytes × JValue) × Bytes)
  | 0, _, _ => none
  | fuel + 1, depth, cs =>
    match cs with
    | [] => none
    | q :: rest =>
      if q = '"' then
        match scanString rest with
        | none => none
        | some (key, out) =>
          match skipSpace out with
          | [] => none
          | colon :: rest1 =>
            if colon = ':' then
              let start := skipSpace rest1
              match scanValue fuel depth start with
              | none => none
              | some (v, out1) =>
                match skipSpace out1 with
                | [] => none
                | d :: rest2 =>
                  if d = '}' then some ([(key, consumed start out1, v)], rest2)
                  else if d = ',' then
                    match scanMembers fuel depth (skipSpace rest2) with
                    | some (members, out2) =>
                      some ((key, consumed start out1, v) :: members, out2)
                    | none => none
                  else none
            else none
      else none
end

/-- The library's validity check of a whole input: one value, with whitespace allowed
around it.  Fuel one above the length of the input is never used up
(`scanValue_fuel_enough`). -/
def scan (b : Bytes) : Option JValue :=
  match scanValue (b.length + 1) 0 (skipSpace b) with
  | some (v, out) => if skipSpace out = [] then some v else none
  | none => none

/-! ### What the scanner reads, stated for its proofs -/

/-- The input `out1` is empty or starts with the character `out` starts with: a value
that ends before `out` ends before `out1` as well. -/
def sameStart (out out1 : Bytes) : Prop :=
  out1 = [] ∨ out1.head? = out.head?

/-- The scanner reads `a` from the text `t` alone: with enough fuel and no more open
arrays and objects, and whatever follows `t` as long as it starts as `out` does. -/
def ReadsFrom {α : Type} (scanner : Nat → Nat → Bytes → Option (α × Bytes)) (depth : Nat)
    (t : Bytes) (a : α) (out : Bytes) : Prop :=
  ∀ fuel1 depth1 out1, t.length ≤ fuel1 → depth1 ≤ depth → sameStart out out1 →
    scanner fuel1 depth1 (t ++ out1) = some (a, out1)

/-- The text `t` stands somewhere in `whole`. -/
def Within (t whole : Bytes) : Prop :=
  ∃ before after, whole = before ++ t ++ after

/-- The values directly under a value, each with its text. -/
def childTexts : JValue → List (Bytes × JValue)
  | JValue.array elems => elems
  | JValue.object members => members.map (fun m => m.2)
  | _ => []

/-- With this fuel, whenever `scanValue` reads a value it reads it from the text it
consumed alone; that text starts with no whitespace, and the text kept with every
value directly under it is a part of it and a valid input for that value. -/
def ValueLocal (fuel : Nat) : Prop :=
  ∀ depth cs v out, scanValue fuel depth cs = some (v, out) →
    ∃ c p, cs = (c :: p) ++ out ∧ isSpace c = false ∧
      ReadsFrom scanValue depth (c :: p) v out ∧
      ∀ e ∈ childTexts v, scan e.1 = some e.2 ∧ Within e.1 (c :: p)

/-- The same for `scanElems`. -/
def ElemsLocal (fuel : Nat) : Prop :=
  ∀ depth cs elems out, scanElems fuel depth cs = some (elems, out) →
    ∃ c q, cs = (c :: q) ++ out ∧ isSpace c = false ∧
      ReadsFrom scanElems depth (c :: q) elems out ∧
      ∀ e ∈ elems, scan e.1 = some e.2 ∧ Within e.1 (c :: q)

/-- The same for `scanMembers`. -/
def MembersLocal (fuel : Nat) : Prop :=
  ∀ depth cs members out, scanMembers fuel depth cs = some (members, out) →
    ∃ c q, cs = (c :: q) ++ out ∧ isSpace c = false ∧
      ReadsFrom scanMembers depth (c :: q) members out ∧
      ∀ m ∈ members, scan m.2.1 = some m.2.2 ∧ Within m.2.1 (c :: q)

/-! ### What `json.Unmarshal` stores -/

/-- What `encoding/json` makes of one byte slice: the outcome of the three
`json.Unmarshal` calls the parser makes on it, into a `string`, into a
`map[string][]json.RawMessage` and into a `map[string]json.RawMessage`.  A map is
listed in the order in which `range` visits it.  The elements of the lists of the
second map are byte slices that the parser unmarshals again, so they are raw
messages themselves; the values of the third map are only copied. -/
inductive RawMessage where
  | mk (asString : Except JsonErr String)
       (asListMap : Except JsonErr (List (String × List RawMessage)))
       (asRawMap : Except JsonErr (List (String × Bytes)))

/-- The order in which `range` visits a map: some rearrangement of its entries. -/
structure MapOrder where
  order : {α : Type} → List (String × α) → List (String × α)
  perm : ∀ {α : Type} (m : List (String × α)), (order m).Perm m

/-- The order of insertion. -/
def MapOrder.source : MapOrder where
  order := fun m => m
  perm := fun m => List.Perm.refl m

/-- The order opposite to that of insertion. -/
def MapOrder.reversed : MapOrder where
  order := fun m => m.reverse
  perm := fun m => List.reverse_perm m

/-- The assignment `m[k] = v` on a map kept as a list with distinct keys. -/
def mapInsert {α : Type} (k : String) (v : α) : List (String × α) → List (String × α)
  | [] => [(k, v)]
  | (k1, v1) :: rest => if k1 = k then (k, v) :: rest else (k1, v1) :: mapInsert k v rest

/-- The Go map that the members of a JSON object fill: a key that occurs again
replaces the earlier entry. -/
def goMap {α : Type} (members : List (String × α)) : List (String × α) :=
  members.foldl (fun m kv => mapInsert kv.1 kv.2 m) []

/-- The `Value` field of the type error for a JSON value. -/
def JValue.kind : JValue → String
  | JValue.null => "null"
  | JValue.bool _ => "bool"
  | JValue.number => "number"
  | JValue.string _ => "string"
  | JValue.array _ => "array"
  | JValue.object _ => "object"

/-- The key and raw text of every member. -/
def rawMembers (members : List (String × Bytes × JValue)) : List (String × Bytes) :=
  members.map (fun m => (m.1, m.2.1))

mutual
/-- What `json.Unmarshal` does with a valid JSON value for each of the three targets.
A `null` leaves any target as it is (the empty string, a nil map) without error; a
string fits only the `string`; an object fits the maps, and the first one only when
every member is an array or `null`; a `json.RawMessage` takes any value. -/
def decode (ord : MapOrder) : JValue → RawMessage
  | JValue.null => RawMessage.mk (Except.ok "") (Except.ok []) (Except.ok [])
  | JValue.bool _ =>
    RawMessage.mk (Except.error (JsonErr.unmarshalTypeError "bool" "string"))
      (Except.error (JsonErr.unmarshalTypeError "bool" "map[string][]json.RawMessage"))
      (Except.error (JsonErr.unmarshalTypeError "bool" "map[string]json.RawMessage"))
  | JValue.number =>
    RawMessage.mk (Except.error (JsonErr.unmarshalTypeError "number" "string"))
      (Except.error (JsonErr.unmarshalTypeError "number" "map[string][]json.RawMessage"))
      (Except.error (JsonErr.unmarshalTypeError "number" "map[string]json.RawMessage"))
  | JValue.string s =>
    RawMessage.mk (Except.ok s)
      (Except.error (JsonErr.unmarshalTypeError "string" "map[string][]json.RawMessage"))
      (Except.error (JsonErr.unmarshalTypeError "string" "map[string]json.RawMessage"))
  | JValue.array _ =>
    RawMessage.mk (Except.error (JsonErr.unmarshalTypeError "array" "string"))
      (Except.error (JsonErr.unmarshalTypeError "array" "map[string][]json.RawMessage"))
      (Except.error (JsonErr.unmarshalTypeError "array" "map[string]json.RawMessage"))
  | JValue.object members =>
    RawMessage.mk (Except.error (JsonErr.unmarshalTypeError "object" "string"))
      (match decodeSlices ord members with
        | Except.ok m => Except.ok (ord.order (goMap m))
        | Except.error e => Except.error e)
      (Except.ok (ord.order (goMap (rawMembers members))))
/-- The members of an object as `[]json.RawMessage` values, in source order; the
first member that is neither an array nor `null` is the error. -/
def decodeSlices (ord : MapOrder) :
    List (String × Bytes × JValue) → Except JsonErr (List (String × List RawMessage))
  | [] => Except.ok []
  | (k, _, v) :: rest =>
    match v with
    | JValue.array elems =>
      match decodeSlices ord rest with
      | Except.ok m => Except.ok ((k, decodeElems ord elems) :: m)
      | Except.error e => Except.error e
    | JValue.null =>
      match decodeSlices ord rest with
      | Except.ok m => Except.ok ((k, []) :: m)
      | Except.error e => Except.error e
    | JValue.bool _ => Except.error (JsonErr.unmarshalTypeError "bool" "[]json.RawMessage")
    | JValue.number => Except.error (JsonErr.unmarshalTypeError "number" "[]json.RawMessage")
    | JValue.string _ => Except.error (JsonErr.unmarshalTypeError "string" "[]json.RawMessage")
    | JValue.object _ => Except.error (JsonErr.unmarshalTypeError "object" "[]json.RawMessage")
/-- The elements of an array as raw messages. -/
def decodeElems (ord : MapOrder) : List (Bytes × JValue) → List RawMessage
  | [] => []
  | (_, v) :: rest => decode ord v :: decodeElems ord rest
end

/-- The three `json.Unmarshal` calls on a byte slice: a syntax error for each when the
slice is not valid JSON, else the decoding of its value. -/
def unmarshal (ord : MapOrder) (b : Bytes) : RawMessage :=
  match scan b with
  | some v => decode ord v
  | none =>
    RawMessage.mk (Except.error JsonErr.syntaxError) (Except.error JsonErr.syntaxError)
      (Except.error JsonErr.syntaxError)

/-- Outcome of `json.Unmarshal(b, &objectName)`. -/
def RawMessage.asString : RawMessage → Except JsonErr String
  | RawMessage.mk s _ _ => s

/-- Outcome of `json.Unmarshal(b, &listObject)`. -/
def RawMessage.asListMap : RawMessage → Except JsonErr (List (String × List RawMessage))
  | RawMessage.mk _ m _ => m

/-- Outcome of `json.Unmarshal(b, &objectObject)`. -/
def RawMessage.asRawMap : RawMessage → Except JsonErr (List (String × Bytes))
  | RawMessage.mk _ _ m => m

/-! ## The package `yop` -/

/-- The errors built on `errObject`, each with the text `fmt.Errorf` gives it. -/
inductive ObjectErr where
  /-- `fmt.Errorf("'%s' %w", key, ErrObjectNotFound)` -/
  | notFound (key : String)
  /-- `fmt.Errorf("%w: %s, please choose one", ErrObjectNotAcceptable, b)` -/
  | notAcceptable (b : Bytes)
  /-- `fmt.Errorf("%w: object has empty string", ErrObjectUndefined)` -/
  | undefinedEmptyString
  /-- `fmt.Errorf("%w: object is null object", ErrObjectUndefined)` -/
  | undefinedNull
  /-- `ErrMaxDepthLimitExceeded` itself -/
  | maxDepthLimitExceeded
deriving DecidableEq, Repr

/-- A Go `error` value the parser can return. -/
inductive Err where
  | object (e : ObjectErr)
  | json (e : JsonErr)
deriving DecidableEq, Repr

/-- The package's error variables. -/
inductive Sentinel where
  | errObject
  | ErrObjectNotFound
  | ErrObjectNotAcceptable
  | ErrObjectUndefined
  | ErrMaxDepthLimitExceeded
deriving DecidableEq, Repr

/-- The chain of `%w` wrappings of an error of the package, outermost first. -/
def ObjectErr.chain : ObjectErr → List Sentinel
  | ObjectErr.notFound _ => [Sentinel.ErrObjectNotFound, Sentinel.errObject]
  | ObjectErr.notAcceptable _ => [Sentinel.ErrObjectNotAcceptable, Sentinel.errObject]
  | ObjectErr.undefinedEmptyString => [Sentinel.ErrObjectUndefined, Sentinel.errObject]
  | ObjectErr.undefinedNull => [Sentinel.ErrObjectUndefined, Sentinel.errObject]
  | ObjectErr.maxDepthLimitExceeded => [Sentinel.ErrMaxDepthLimitExceeded, Sentinel.errObject]

/-- The call `errors.Is(err, target)`. -/
def errorsIs : Err → Sentinel → Bool
  | Err.object e, target => decide (target ∈ e.chain)
  | Err.json _, _ => false

/-- The method `Error()` of an error of the package.  `ErrMaxDepthLimitExceeded` is
formatted once, when the package is initialised and `maxDepthLimit` is 2. -/
def ObjectErr.Error : ObjectErr → String
  | ObjectErr.notFound key => "'" ++ key ++ "' parameter not found"
  | ObjectErr.notAcceptable b => "parameter not acceptable" ++ ": " ++ String.mk b ++ ", please choose one"
  | ObjectErr.undefinedEmptyString => "parameter undefined" ++ ": object has empty string"
  | ObjectErr.undefinedNull => "parameter undefined" ++ ": object is null object"
  | ObjectErr.maxDepthLimitExceeded => "parameter max depth limit (2) exceeded"

/-- The struct `Object`. -/
structure Object where
  Name : String
  Level : Int
  Children : List Object
  Arguments : String
deriving Repr

/-- The composite literal `&Object{Level: level}`: the other fields are Go's zero
values. -/
def Object.new (level : Int) : Object :=
  { Name := "", Level := level, Children := [], Arguments := "" }

/-- The package-level variables `maxDepthLimit` and `validObjectNames`, with their
initial values. -/
structure Globals where
  maxDepthLimit : Int := 2
  validObjectNames : List String := []
deriving Repr

/-- A Go call either returns or panics. -/
inductive Run (α : Type) where
  | ret (a : α)
  | panic
deriving Repr

/-- The loop of `isSupported` over the registry. -/
def isSupportedIn : List String → String → Option Err
  | [], key => some (Err.object (ObjectErr.notFound key))
  | name :: rest, key => if key = name then none else isSupportedIn rest key

/-- The function `isSupported`. -/
def isSupported (g : Globals) (key : String) : Option Err :=
  isSupportedIn g.validObjectNames key

/-- The function `isObjectValid`; indexing `b[0]` panics on an empty slice. -/
def isObjectValid (b : Bytes) : Run (Option Err) :=
  if b = ['"', '"'] then Run.ret (some (Err.object ObjectErr.undefinedEmptyString))
  else if b = ['n', 'u', 'l', 'l'] then Run.ret (some (Err.object ObjectErr.undefinedNull))
  else
    match b with
    | [] => Run.panic
    | c :: _ =>
      if c = '[' then Run.ret (some (Err.object (ObjectErr.notAcceptable b)))
      else Run.ret none

/-- The function `parseObjectFromString`. -/
def parseObjectFromString (g : Globals) (parent : Object) (b : RawMessage) :
    Object × Option Err :=
  match b.asString with
  | Except.error e => (parent, some (Err.json e))
  | Except.ok objectName =>
    match isSupported g objectName with
    | some e => (parent, some e)
    | none => ({ parent with Name := objectName }, none)

/-- The loop of `parseObjectWithArguments` over the entries of `objectObject`. -/
def rangeObjectObject (g : Globals) (parent : Object) :
    List (String × Bytes) → Object × Option Err
  | [] => (parent, none)
  | (objectName, arguments) :: rest =>
    match isSupported g objectName with
    | some e => (parent, some e)
    | none =>
      rangeObjectObject g
        { parent with Name := objectName, Arguments := String.mk arguments } rest

/-- The function `parseObjectWithArguments`. -/
def parseObjectWithArguments (g : Globals) (parent : Object) (b : RawMessage) :
    Object × Option Err :=
  match b.asRawMap with
  | Except.error e => (parent, some (Err.json e))
  | Except.ok objectObject => rangeObjectObject g parent objectObject

mutual
/-- The function `parseObject`.  The call of `parseObjectWithChildren` is written as
`parseObjectWithChildrenOf` on what its `json.Unmarshal` returns (see
`parseObject_eq`). -/
def parseObject (g : Globals) (parent : Object) : RawMessage → Object × Option Err
  | RawMessage.mk asString asListMap asRawMap =>
    if parent.Level > g.maxDepthLimit then
      (parent, some (Err.object ObjectErr.maxDepthLimitExceeded))
    else
      match parseObjectFromString g parent (RawMessage.mk asString asListMap asRawMap) with
      | (parent1, none) => (parent1, none)
      | (parent1, some err) =>
        if errorsIs err Sentinel.errObject then (parent1, some err)
        else
          match parseObjectWithChildrenOf g parent1 asListMap with
          | (parent2, none) => (parent2, none)
          | (parent2, some err) =>
            if errorsIs err Sentinel.errObject then (parent2, some err)
            else parseObjectWithArguments g parent2 (RawMessage.mk asString asListMap asRawMap)
/-- The body of `parseObjectWithChildren`, given the outcome of its `json.Unmarshal`. -/
def parseObjectWithChildrenOf (g : Globals) (parent : Object) :
    Except JsonErr (List (String × List RawMessage)) → Object × Option Err
  | Except.error e => (parent, some (Err.json e))
  | Except.ok listObject => rangeListObject g parent listObject
/-- The outer loop of `parseObjectWithChildren`, over the entries of `listObject`. -/
def rangeListObject (g : Globals) (parent : Object) :
    List (String × List RawMessage) → Object × Option Err
  | [] => (parent, none)
  | (objectName, children) :: rest =>
    match isSupported g objectName with
    | some e => (parent, some e)
    | none =>
      match rangeChildren g { parent with Name := objectName } children with
      | (parent1, some e) => (parent1, some e)
      | (parent1, none) => rangeListObject g parent1 rest
/-- The inner loop of `parseObjectWithChildren`, over the children of one entry. -/
def rangeChildren (g : Globals) (parent : Object) :
    List RawMessage → Object × Option Err
  | [] => (parent, none)
  | child :: rest =>
    match parseObject g (Object.new (parent.Level + 1)) child with
    | (_, some e) => (parent, some e)
    | (childObject, none) =>
      rangeChildren g { parent with Children := parent.Children ++ [childObject] } rest
end

/-- The function `parseObjectWithChildren`. -/
def parseObjectWithChildren (g : Globals) (parent : Object) (b : RawMessage) :
    Object × Option Err :=
  parseObjectWithChildrenOf g parent b.asListMap

/-- The function `ParseObjectFromJSON`: the returned pair `(*Object, error)`. -/
def ParseObjectFromJSON (g : Globals) (ord : MapOrder) (jsonObjectSection : Bytes) :
    Run (Option Object × Option Err) :=
  match isObjectValid jsonObjectSection with
  | Run.panic => Run.panic
  | Run.ret (some err) => Run.ret (none, some err)
  | Run.ret none =>
    match parseObject g (Object.new 0) (unmarshal ord jsonObjectSection) with
    | (_, some err) => Run.ret (none, some err)
    | (obj, none) => Run.ret (some obj, none)

/-! ### The registry and the depth limit -/

/-- The function `SetMaxDepthLimit`. -/
def SetMaxDepthLimit (g : Globals) (limit : Int) : Globals :=
  { g with maxDepthLimit := limit }

/-- The function `AddObjectName`, with its variadic argument as a list. -/
def AddObjectName (g : Globals) (names : List String) : Globals :=
  if names.length > 0 then { g with validObjectNames := g.validObjectNames ++ names }
  else g

/-- The part of the package `strings` that the source uses.  `EqualFold` compares two
strings under Unicode simple case folding; its tables are the library's, so it is a
parameter here, with the one law used below: every string is equal to itself. -/
structure Strings where
  EqualFold : String → String → Bool
  equalFold_refl : ∀ s, EqualFold s s = true

/-- The lower-case form of an ASCII capital letter; any other character as it is. -/
def foldAscii (c : Char) : Char :=
  if 'A' ≤ c ∧ c ≤ 'Z' then Char.ofNat (c.toNat + 32) else c

/-- What `strings.EqualFold` is on ASCII text: equality up to the case of the letters
`A` to `Z`. -/
def Strings.ascii : Strings where
  EqualFold := fun s t => decide (s.toList.map foldAscii = t.toList.map foldAscii)
  equalFold_refl := fun _ => decide_eq_true rfl

/-- The loop of `RemoveObjectName`: `result` grows by the names that are kept. -/
def removeLoop (lib : Strings) (name : String) : List String → List String → List String
  | result, [] => result
  | result, objectName :: rest =>
    if !lib.EqualFold objectName name then removeLoop lib name (result ++ [objectName]) rest
    else removeLoop lib name result rest

/-- The function `RemoveObjectName`. -/
def RemoveObjectName (lib : Strings) (g : Globals) (name : String) : Globals :=
  { g with validObjectNames := removeLoop lib name [] g.validObjectNames }

/-! ## Properties of trees and inputs used in the statements -/

mutual
/-- No node of the tree has both children and arguments. -/
def Object.exclusive : Object → Bool
  | Object.mk _ _ children arguments =>
    (children.isEmpty || arguments.isEmpty) && exclusiveAll children
/-- The same for every tree of a list. -/
def exclusiveAll : List Object → Bool
  | [] => true
  | c :: cs => c.exclusive && exclusiveAll cs
end

mutual
/-- The name of every node of the tree is an entry of the registry. -/
def Object.namesIn (names : List String) : Object → Bool
  | Object.mk name _ children _ => decide (name ∈ names) && namesInAll names children
/-- The same for every tree of a list. -/
def namesInAll (names : List String) : List Object → Bool
  | [] => true
  | c :: cs => c.namesIn names && namesInAll names cs
end

mutual
/-- Every child of every node of the tree has the level of its parent plus 1. -/
def Object.levelled : Object → Bool
  | Object.mk _ level children _ => levelledAll (level + 1) children
/-- Every tree of the list has its root at `level` and is levelled. -/
def levelledAll (level : Int) : List Object → Bool
  | [] => true
  | c :: cs => decide (c.Level = level) && c.levelled && levelledAll level cs
end

mutual
/-- No node of the tree has a level above `limit`. -/
def Object.within (limit : Int) : Object → Bool
  | Object.mk _ level children _ => decide (level ≤ limit) && withinAll limit children
/-- The same for every tree of a list. -/
def withinAll (limit : Int) : List Object → Bool
  | [] => true
  | c :: cs => c.within limit && withinAll limit cs
end

mutual
/-- Whether the node has the level `d` and every node under it has, as level, `d` plus
its distance from the node. -/
def Object.atDepth (d : Int) : Object → Bool
  | Object.mk _ level children _ => decide (level = d) && atDepthAll (d + 1) children
/-- The same for every tree of a list. -/
def atDepthAll (d : Int) : List Object → Bool
  | [] => true
  | c :: cs => c.atDepth d && atDepthAll d cs
end

/-- The value `chain(n)`: a string with a registered name when `n` is 0, else an
object with one registered key whose value is the one-element list of `chain(n-1)`. -/
def isChain (names : List String) : Nat → JValue → Bool
  | 0, JValue.string s => decide (s ∈ names)
  | n + 1, JValue.object [(k, _, JValue.array [(_, v)])] =>
    decide (k ∈ names) && isChain names n v
  | _, _ => false


/-! ## Inputs used in the examples -/

/-- The registry of the package's tests, with the default maximum depth. -/
def testGlobals : Globals :=
  { maxDepthLimit := 2,
    validObjectNames :=
      ["or", "and", "user", "service", "location", "opening-hours", "relationship"] }

/-- A registry that holds only the empty name. -/
def emptyNameGlobals : Globals :=
  { maxDepthLimit := 2, validObjectNames := [""] }

/-- The input `{"and":["user","service"]}`. -/
def listInput : Bytes := "\x7b\"and\":[\"user\",\"service\"]\x7d".toList

/-- The input `{"location":{"region":"uk"}}`. -/
def argumentsInput : Bytes := "\x7b\"location\":\x7b\"region\":\"uk\"\x7d\x7d".toList

/-- The input `{"and":[{"or":[{"and":["or"]}]}]}`, whose deepest node is at level 3. -/
def chain3 : Bytes :=
  "\x7b\"and\":[\x7b\"or\":[\x7b\"and\":[\"or\"]\x7d]\x7d]\x7d".toList

/-- The input `{"and":[{"or":["and"]}]}`, whose deepest node is at level 2. -/
def chain2 : Bytes := "\x7b\"and\":[\x7b\"or\":[\"and\"]\x7d]\x7d".toList

/-- The input `{"and":["user",5]}`: a list whose second element is a number. -/
def numberChildInput : Bytes := "\x7b\"and\":[\"user\",5]\x7d".toList

/-- The input `{"or":["user",{"and":["service",true]}]}`. -/
def nestedBoolInput : Bytes :=
  "\x7b\"or\":[\"user\",\x7b\"and\":[\"service\",true]\x7d]\x7d".toList

/-- The input `{}`. -/
def emptyObjectInput : Bytes := "\x7b\x7d".toList

/-- The input of the test `rule nested format with object`, as JSON. -/
def nestedInput : Bytes :=
  ("\x7b\"or\":[\"user\",\x7b\"and\":[\"service\"," ++
    "\x7b\"opening-hours\":\x7b\"closing\":\"20:00\",\"opening\":\"10:00\"\x7d\x7d," ++
    "\x7b\"relationship\":\x7b\"levels\":[\"comprehensive\",\"parent\"]\x7d\x7d]\x7d]\x7d").toList

/-- The input of the test `error rule max depth limit exceeded`, as JSON:
`{"and":[{"or":[{"and":[{"or":null}]}]}]}`. -/
def tooDeepInput : Bytes :=
  "\x7b\"and\":[\x7b\"or\":[\x7b\"and\":[\x7b\"or\":null\x7d]\x7d]\x7d]\x7d".toList

/-- The input of the test `error rule list not acceptable`, as JSON. -/
def rootListInput : Bytes :=
  "[\"user\",\x7b\"location\":\x7b\"region\":\"uk\"\x7d\x7d]".toList

/-- The input `{"and":["user"],"or":["service"]}`: two registered keys with a list each. -/
def twoListsInput : Bytes :=
  "\x7b\"and\":[\"user\"],\"or\":[\"service\"]\x7d".toList

/-- The input `{"or":["service"]}`: the second key of `twoListsInput` alone. -/
def lastListInput : Bytes := "\x7b\"or\":[\"service\"]\x7d".toList

/-- The input `{"location":{"region":"uk"},"user":{"id":1}}`: two registered keys with
an object each. -/
def twoObjectsInput : Bytes :=
  "\x7b\"location\":\x7b\"region\":\"uk\"\x7d,\"user\":\x7b\"id\":1\x7d\x7d".toList

/-- The input `{"and":[null]}`: a list whose only element is the literal `null`. -/
def nullChildInput : Bytes := "\x7b\"and\":[null]\x7d".toList

/-- The input `{"and":["user",""]}`: a list whose second element is the empty string. -/
def emptyChildInput : Bytes := "\x7b\"and\":[\"user\",\"\"]\x7d".toList

/-- The tree of the test `rule list format`. -/
def listTree : Object :=
  { Name := "and", Level := 0,
    Children := [{ Name := "user", Level := 1, Children := [], Arguments := "" },
                 { Name := "service", Level := 1, Children := [], Arguments := "" }],
    Arguments := "" }

/-- The tree of the input `chain2`. -/
def chain2Tree : Object :=
  { Name := "and", Level := 0,
    Children := [{ Name := "or", Level := 1,
                   Children := [{ Name := "and", Level := 2, Children := [], Arguments := "" }],
                   Arguments := "" }],
    Arguments := "" }

/-- A registry with three entries that differ only by the case of their letters. -/
def duplicateGlobals : Globals :=
  { maxDepthLimit := 2, validObjectNames := ["user", "or", "User", "user"] }

/-- The input `{"user":{"id":1}}`: the second key of `twoObjectsInput` alone. -/
def lastObjectInput : Bytes := "\x7b\"user\":\x7b\"id\":1\x7d\x7d".toList

/-- The input `{"location":{"region":"uk"},"and":["user"]}`: a registered key with an
object, then a registered key with a list. -/
def mixedInput : Bytes :=
  "\x7b\"location\":\x7b\"region\":\"uk\"\x7d,\"and\":[\"user\"]\x7d".toList

/-- The input `{"and":["user"]}`: the second key of `mixedInput` alone. -/
def lastOfMixedInput : Bytes := "\x7b\"and\":[\"user\"]\x7d".toList

/-- The input `{"and":["nope",null]}`: an unregistered name, then the literal `null`. -/
def unknownThenNullInput : Bytes := "\x7b\"and\":[\"nope\",null]\x7d".toList

/-! ## The parser, unfolded -/

theorem parseObject_eq (g : Globals) (parent : Object) (b : RawMessage) :
    parseObject g parent b =
      if parent.Level > g.maxDepthLimit then
        (parent, some (Err.object ObjectErr.maxDepthLimitExceeded))
      else
        match parseObjectFromString g parent b with
        | (parent1, none) => (parent1, none)
        | (parent1, some err) =>
          if errorsIs err Sentinel.errObject then (parent1, some err)
          else
            match parseObjectWithChildren g parent1 b with
            | (parent2, none) => (parent2, none)
            | (parent2, some err) =>
              if errorsIs err Sentinel.errObject then (parent2, some err)
              else parseObjectWithArguments g parent2 b := by
  cases b
  rw [parseObject]
  rfl

theorem scan_nil : scan [] = none := by rfl

theorem scan_empty_string : scan ['"', '"'] = some (JValue.string "") := by rfl

theorem scan_null : scan ['n', 'u', 'l', 'l'] = some JValue.null := by rfl

theorem scanValue_bracket (fuel depth : Nat) (rest out : Bytes) (v : JValue)
    (h : scanValue fuel depth ('[' :: rest) = some (v, out)) : ∃ es, v = JValue.array es := by
  cases fuel with
  | zero => simp [scanValue] at h
  | succ n =>
    simp only [scanValue] at h
    rw [if_neg (by decide), if_pos trivial] at h
    split at h
    · simp at h
    · split at h
      · simp at h
      · split at h
        · simp only [Option.some.injEq, Prod.mk.injEq] at h
          exact ⟨[], h.1.symm⟩
        · split at h
          · simp only [Option.some.injEq, Prod.mk.injEq] at h
            exact ⟨_, h.1.symm⟩
          · simp at h

theorem scan_bracket (rest : Bytes) (v : JValue) (h : scan ('[' :: rest) = some v) :
    ∃ es, v = JValue.array es := by
  unfold scan at h
  have hs : skipSpace ('[' :: rest) = '[' :: rest := by
    rw [skipSpace, if_neg (by decide)]
  rw [hs] at h
  split at h
  · rename_i v1 out hv
    split at h
    · simp only [Option.some.injEq] at h
      subst h
      exact scanValue_bracket _ _ _ _ _ hv
    · simp at h
  · simp at h

/-- An input other than the text `""` that scans to a value other than `null` or an
array passes `isObjectValid`. -/
theorem isObjectValid_of_scan_text (b : Bytes) (v : JValue) (h : scan b = some v)
    (hnull : v ≠ JValue.null) (hempty : b ≠ ['"', '"'])
    (harray : ∀ es, v ≠ JValue.array es) : isObjectValid b = Run.ret none := by
  cases b with
  | nil =>
    rw [scan_nil] at h
    cases h
  | cons c rest =>
    unfold isObjectValid
    by_cases h2 : c :: rest = ['n', 'u', 'l', 'l']
    · rw [h2, scan_null] at h
      exact absurd (Option.some.inj h).symm hnull
    · rw [if_neg hempty, if_neg h2]
      by_cases hc : c = '['
      · subst hc
        obtain ⟨es, hes⟩ := scan_bracket rest v h
        exact absurd hes (harray es)
      · simp only [hc, if_false]

/-- An input that scans to a value other than `null`, the empty string or an array
passes `isObjectValid`. -/
theorem isObjectValid_of_scan (b : Bytes) (v : JValue) (h : scan b = some v)
    (hnull : v ≠ JValue.null) (hempty : v ≠ JValue.string "")
    (harray : ∀ es, v ≠ JValue.array es) : isObjectValid b = Run.ret none := by
  refine isObjectValid_of_scan_text b v h hnull ?_ harray
  intro hb
  rw [hb, scan_empty_string] at h
  exact hempty (Option.some.inj h).symm

/-! ## The registry lookup and the library's maps -/

theorem isSupportedIn_of_mem (names : List String) (key : String) (h : key ∈ names) :
    isSupportedIn names key = none := by
  induction names with
  | nil => cases h
  | cons name rest ih =>
    rw [isSupportedIn]
    by_cases hk : key = name
    · rw [if_pos hk]
    · rw [if_neg hk]
      rcases List.mem_cons.mp h with h1 | h1
      · exact absurd h1 hk
      · exact ih h1

theorem isSupportedIn_of_not_mem (names : List String) (key : String) (h : key ∉ names) :
    isSupportedIn names key = some (Err.object (ObjectErr.notFound key)) := by
  induction names with
  | nil => rfl
  | cons name rest ih =>
    rw [isSupportedIn]
    have hk : key ≠ name := fun e => h (e ▸ List.mem_cons_self _ _)
    rw [if_neg hk]
    exact ih (fun hm => h (List.mem_cons_of_mem _ hm))

theorem isSupported_of_mem (g : Globals) (key : String) (h : key ∈ g.validObjectNames) :
    isSupported g key = none :=
  isSupportedIn_of_mem _ _ h

theorem isSupported_of_not_mem (g : Globals) (key : String) (h : key ∉ g.validObjectNames) :
    isSupported g key = some (Err.object (ObjectErr.notFound key)) :=
  isSupportedIn_of_not_mem _ _ h

theorem order_singleton (ord : MapOrder) {α : Type} (x : String × α) :
    ord.order [x] = [x] :=
  List.perm_singleton.mp (ord.perm [x])

theorem order_nil (ord : MapOrder) {α : Type} :
    ord.order ([] : List (String × α)) = [] :=
  List.perm_nil.mp (ord.perm [])

theorem unmarshal_of_scan (ord : MapOrder) (b : Bytes) (v : JValue) (h : scan b = some v) :
    unmarshal ord b = decode ord v := by
  unfold unmarshal
  rw [h]

/-! ## One step of `parseObject` -/

theorem isSupported_cases (g : Globals) (key : String) :
    isSupported g key = none ∨ isSupported g key = some (Err.object (ObjectErr.notFound key)) := by
  by_cases h : key ∈ g.validObjectNames
  · exact Or.inl (isSupported_of_mem g key h)
  · exact Or.inr (isSupported_of_not_mem g key h)

theorem parseObject_exceeded (g : Globals) (parent : Object) (b : RawMessage)
    (h : parent.Level > g.maxDepthLimit) :
    parseObject g parent b = (parent, some (Err.object ObjectErr.maxDepthLimitExceeded)) := by
  rw [parseObject_eq, if_pos h]

theorem parseObject_string_ok (g : Globals) (parent : Object) (b : RawMessage) (x : String)
    (h : ¬ parent.Level > g.maxDepthLimit) (hb : b.asString = Except.ok x)
    (hx : x ∈ g.validObjectNames) :
    parseObject g parent b = ({ parent with Name := x }, none) := by
  rw [parseObject_eq, if_neg h]
  simp only [parseObjectFromString, hb, isSupported_of_mem g x hx]

theorem parseObject_string_not_found (g : Globals) (parent : Object) (b : RawMessage)
    (x : String) (h : ¬ parent.Level > g.maxDepthLimit) (hb : b.asString = Except.ok x)
    (hx : x ∉ g.validObjectNames) :
    parseObject g parent b = (parent, some (Err.object (ObjectErr.notFound x))) := by
  rw [parseObject_eq, if_neg h]
  simp only [parseObjectFromString, hb, isSupported_of_not_mem g x hx]
  rfl

theorem parseObject_not_string (g : Globals) (parent : Object) (b : RawMessage) (e : JsonErr)
    (h : ¬ parent.Level > g.maxDepthLimit) (hb : b.asString = Except.error e) :
    parseObject g parent b =
      match parseObjectWithChildren g parent b with
      | (parent2, none) => (parent2, none)
      | (parent2, some err) =>
        if errorsIs err Sentinel.errObject then (parent2, some err)
        else parseObjectWithArguments g parent2 b := by
  rw [parseObject_eq, if_neg h]
  simp only [parseObjectFromString, hb]
  rfl

/-- A failure of `parseObjectWithChildren` with an error of the `errObject` family, a
child's included, is the outcome of `parseObject`. -/
theorem parseObject_children_error_final (g : Globals) (parent : Object) (b : RawMessage)
    (e0 : JsonErr) (parent1 : Object) (err : Err)
    (h : ¬ parent.Level > g.maxDepthLimit) (hb : b.asString = Except.error e0)
    (hc : parseObjectWithChildren g parent b = (parent1, some err))
    (he : errorsIs err Sentinel.errObject = true) :
    parseObject g parent b = (parent1, some err) := by
  rw [parseObject_not_string g parent b e0 h hb, hc]
  simp only [he, if_true]

/-! ## The loops of the three shapes -/

theorem decodeElems_eq_map (ord : MapOrder) (elems : List (Bytes × JValue)) :
    decodeElems ord elems = elems.map (fun c => decode ord c.2) := by
  induction elems with
  | nil => rw [decodeElems]; rfl
  | cons c rest ih =>
    obtain ⟨t, v⟩ := c
    rw [decodeElems, ih]
    rfl

theorem decode_object_asString (ord : MapOrder) (members : List (String × Bytes × JValue)) :
    (decode ord (JValue.object members)).asString =
      Except.error (JsonErr.unmarshalTypeError "object" "string") := by
  rw [decode, RawMessage.asString]

theorem decode_object_asRawMap (ord : MapOrder) (k : String) (t : Bytes) (v : JValue) :
    (decode ord (JValue.object [(k, t, v)])).asRawMap = Except.ok [(k, t)] := by
  rw [decode, RawMessage.asRawMap]
  have h : goMap (rawMembers [(k, t, v)]) = [(k, t)] := rfl
  rw [h, order_singleton]

theorem decode_object_asListMap (ord : MapOrder) (k : String) (t : Bytes)
    (elems : List (Bytes × JValue)) :
    (decode ord (JValue.object [(k, t, JValue.array elems)])).asListMap =
      Except.ok [(k, decodeElems ord elems)] := by
  rw [decode, RawMessage.asListMap]
  simp only [decodeSlices]
  have h : goMap [(k, decodeElems ord elems)] = [(k, decodeElems ord elems)] := rfl
  rw [h, order_singleton]

theorem rangeObjectObject_single (g : Globals) (parent : Object) (k : String) (t : Bytes)
    (hk : k ∈ g.validObjectNames) :
    rangeObjectObject g parent [(k, t)] =
      ({ parent with Name := k, Arguments := String.mk t }, none) := by
  simp only [rangeObjectObject, isSupported_of_mem g k hk]

theorem rangeChildren_level (g : Globals) (children : List RawMessage) :
    ∀ parent : Object, (rangeChildren g parent children).1.Level = parent.Level := by
  induction children with
  | nil => intro parent; rw [rangeChildren]
  | cons c rest ih =>
    intro parent
    rw [rangeChildren]
    rcases parseObject g (Object.new (parent.Level + 1)) c with ⟨childObject, _ | e⟩
    · exact ih _
    · rfl

theorem rangeListObject_level (g : Globals) (listObject : List (String × List RawMessage)) :
    ∀ parent : Object, (rangeListObject g parent listObject).1.Level = parent.Level := by
  induction listObject with
  | nil => intro parent; rw [rangeListObject]
  | cons entry rest ih =>
    intro parent
    obtain ⟨objectName, children⟩ := entry
    rw [rangeListObject]
    rcases isSupported g objectName with _ | e
    · have hc := rangeChildren_level g children { parent with Name := objectName }
      rcases hr : rangeChildren g { parent with Name := objectName } children with ⟨p1, _ | e⟩
      · rw [hr] at hc
        simp only
        rw [ih p1]
        exact hc
      · rw [hr] at hc
        exact hc
    · rfl

theorem rangeObjectObject_level (g : Globals) (objectObject : List (String × Bytes)) :
    ∀ parent : Object, (rangeObjectObject g parent objectObject).1.Level = parent.Level := by
  induction objectObject with
  | nil => intro parent; rfl
  | cons entry rest ih =>
    intro parent
    obtain ⟨objectName, arguments⟩ := entry
    rw [rangeObjectObject]
    rcases isSupported g objectName with _ | e
    · simp only
      rw [ih]
    · rfl

theorem parseObjectFromString_level (g : Globals) (parent : Object) (b : RawMessage) :
    (parseObjectFromString g parent b).1.Level = parent.Level := by
  unfold parseObjectFromString
  split
  · rfl
  · split <;> rfl

theorem parseObjectWithChildren_level (g : Globals) (parent : Object) (b : RawMessage) :
    (parseObjectWithChildren g parent b).1.Level = parent.Level := by
  unfold parseObjectWithChildren
  rcases b.asListMap with e | m
  · rw [parseObjectWithChildrenOf]
  · rw [parseObjectWithChildrenOf]
    exact rangeListObject_level g m parent

theorem parseObjectWithArguments_level (g : Globals) (parent : Object) (b : RawMessage) :
    (parseObjectWithArguments g parent b).1.Level = parent.Level := by
  unfold parseObjectWithArguments
  rcases b.asRawMap with e | m
  · rfl
  · exact rangeObjectObject_level g m parent

/-- Every call of `parseObject` leaves the level of the node it fills as it was. -/
theorem parseObject_level (g : Globals) (parent : Object) (b : RawMessage) :
    (parseObject g parent b).1.Level = parent.Level := by
  rw [parseObject_eq]
  split
  · rfl
  · have h1 := parseObjectFromString_level g parent b
    rcases hs : parseObjectFromString g parent b with ⟨p1, _ | e1⟩
    · rw [hs] at h1
      exact h1
    · rw [hs] at h1
      simp only
      split
      · exact h1
      · have h2 := parseObjectWithChildren_level g p1 b
        rcases hc : parseObjectWithChildren g p1 b with ⟨p2, _ | e2⟩
        · rw [hc] at h2
          exact h2.trans h1
        · rw [hc] at h2
          simp only
          split
          · exact h2.trans h1
          · rw [parseObjectWithArguments_level]
            exact h2.trans h1

theorem rangeChildren_all_ok (g : Globals) (children : List RawMessage) :
    ∀ parent : Object,
      (∀ c ∈ children, (parseObject g (Object.new (parent.Level + 1)) c).2 = none) →
      rangeChildren g parent children =
        ({ parent with
            Children := parent.Children ++
              children.map (fun c => (parseObject g (Object.new (parent.Level + 1)) c).1) },
          none) := by
  induction children with
  | nil =>
    intro parent _
    rw [rangeChildren]
    cases parent
    simp
  | cons c rest ih =>
    intro parent h
    rw [rangeChildren]
    have hc := h c (List.mem_cons_self _ _)
    rcases hr : parseObject g (Object.new (parent.Level + 1)) c with ⟨childObject, _ | e⟩
    · have hrest := ih { parent with Children := parent.Children ++ [childObject] }
        (fun c1 hc1 => h c1 (List.mem_cons_of_mem _ hc1))
      simp only
      rw [hrest]
      simp [hr]
    · rw [hr] at hc
      cases hc

theorem decode_object_asListMap_cases (ord : MapOrder) (k : String) (t : Bytes) (w : JValue) :
    (∃ children, (decode ord (JValue.object [(k, t, w)])).asListMap =
        Except.ok [(k, children)]) ∨
      ∃ e, (decode ord (JValue.object [(k, t, w)])).asListMap = Except.error e := by
  rw [decode, RawMessage.asListMap]
  cases w with
  | array elems =>
    refine Or.inl ⟨decodeElems ord elems, ?_⟩
    simp only [decodeSlices]
    have h : goMap [(k, decodeElems ord elems)] = [(k, decodeElems ord elems)] := rfl
    rw [h, order_singleton]
  | null =>
    refine Or.inl ⟨[], ?_⟩
    simp only [decodeSlices]
    have h : goMap [(k, ([] : List RawMessage))] = [(k, [])] := rfl
    rw [h, order_singleton]
  | bool _ => exact Or.inr ⟨_, by simp only [decodeSlices]; rfl⟩
  | number => exact Or.inr ⟨_, by simp only [decodeSlices]; rfl⟩
  | string _ => exact Or.inr ⟨_, by simp only [decodeSlices]; rfl⟩
  | object _ => exact Or.inr ⟨_, by simp only [decodeSlices]; rfl⟩

theorem parseObject_unknown_key (g : Globals) (ord : MapOrder) (parent : Object)
    (name : String) (t : Bytes) (w : JValue)
    (hlevel : parent.Level ≤ g.maxDepthLimit) (hname : name ∉ g.validObjectNames) :
    parseObject g parent (decode ord (JValue.object [(name, t, w)])) =
      (parent, some (Err.object (ObjectErr.notFound name))) := by
  have hl : ¬ parent.Level > g.maxDepthLimit := by omega
  rw [parseObject_not_string g parent _ _ hl (decode_object_asString ord _)]
  unfold parseObjectWithChildren
  rcases decode_object_asListMap_cases ord name t w with ⟨children, h⟩ | ⟨e, h⟩
  · rw [h, parseObjectWithChildrenOf, rangeListObject, isSupported_of_not_mem g name hname]
    rfl
  · rw [h, parseObjectWithChildrenOf]
    simp only [errorsIs, Bool.false_eq_true, if_false]
    unfold parseObjectWithArguments
    rw [decode_object_asRawMap]
    simp only [rangeObjectObject, isSupported_of_not_mem g name hname]

/-! ## Chains of single-key objects -/

theorem isChain_zero (names : List String) (v : JValue) (h : isChain names 0 v = true) :
    ∃ s, v = JValue.string s ∧ s ∈ names := by
  cases v with
  | string s => exact ⟨s, rfl, by simpa [isChain] using h⟩
  | null => simp [isChain] at h
  | bool _ => simp [isChain] at h
  | number => simp [isChain] at h
  | array _ => simp [isChain] at h
  | object _ => simp [isChain] at h

theorem isChain_succ (names : List String) (n : Nat) (v : JValue)
    (h : isChain names (n + 1) v = true) :
    ∃ k t t1 v1, v = JValue.object [(k, t, JValue.array [(t1, v1)])] ∧ k ∈ names ∧
      isChain names n v1 = true := by
  unfold isChain at h
  split at h
  · rename_i heq
    cases heq
  · rename_i heq
    cases heq
    simp only [Bool.and_eq_true, decide_eq_true_eq] at h
    exact ⟨_, _, _, _, rfl, h.1, h.2⟩
  · simp at h

/-- The outcome of parsing `chain(n)` from a node at any level: no error when the
deepest node stays within the maximum depth, else `ErrMaxDepthLimitExceeded`. -/
theorem parseObject_chain (g : Globals) (ord : MapOrder) (n : Nat) :
    ∀ (v : JValue) (parent : Object), isChain g.validObjectNames n v = true →
      (parent.Level + n ≤ g.maxDepthLimit →
        (parseObject g parent (decode ord v)).2 = none) ∧
      (parent.Level + n > g.maxDepthLimit →
        (parseObject g parent (decode ord v)).2 =
          some (Err.object ObjectErr.maxDepthLimitExceeded)) := by
  induction n with
  | zero =>
    intro v parent hv
    obtain ⟨s, rfl, hs⟩ := isChain_zero _ _ hv
    constructor
    · intro h
      rw [parseObject_string_ok g parent _ s (by omega) (by rw [decode, RawMessage.asString]) hs]
    · intro h
      rw [parseObject_exceeded g parent _ (by omega)]
  | succ n ih =>
    intro v parent hv
    obtain ⟨k, t, t1, v1, rfl, hk, hv1⟩ := isChain_succ _ _ _ hv
    by_cases hl : parent.Level > g.maxDepthLimit
    · constructor
      · intro h
        omega
      · intro _
        rw [parseObject_exceeded g parent _ hl]
    · have hchild := ih v1 (Object.new (parent.Level + 1)) hv1
      have hlevel : (Object.new (parent.Level + 1)).Level = parent.Level + 1 := rfl
      rw [hlevel] at hchild
      rw [parseObject_not_string g parent _ _ hl (decode_object_asString ord _)]
      unfold parseObjectWithChildren
      rw [decode_object_asListMap, parseObjectWithChildrenOf, rangeListObject,
        isSupported_of_mem g k hk]
      simp only [decodeElems, rangeChildren]
      rcases hr : parseObject g (Object.new (parent.Level + 1)) (decode ord v1)
        with ⟨childObject, _ | e⟩
      · rw [hr] at hchild
        constructor
        · intro _
          simp [rangeListObject]
        · intro h
          have := hchild.2 (by push_cast at h ⊢; omega)
          cases this
      · rw [hr] at hchild
        constructor
        · intro h
          have := hchild.1 (by push_cast at h ⊢; omega)
          cases this
        · intro h
          have he := hchild.2 (by push_cast at h ⊢; omega)
          simp only [Option.some.injEq] at he
          subst he
          rfl

theorem isChain_valid (names : List String) (n : Nat) (b : Bytes) (v : JValue)
    (hb : scan b = some v) (hchain : isChain names n v = true)
    (hroot : b ≠ ['"', '"']) : isObjectValid b = Run.ret none := by
  cases n with
  | zero =>
    obtain ⟨s, rfl, _⟩ := isChain_zero _ _ hchain
    exact isObjectValid_of_scan_text b _ hb (by simp) hroot (by simp)
  | succ n =>
    obtain ⟨k, t, t1, v1, rfl, _, _⟩ := isChain_succ _ _ _ hchain
    exact isObjectValid_of_scan_text b _ hb (by simp) hroot (by simp)

/-! ## The scanner reads every value from its own text -/

theorem scanStringItems_append_aux (n : Nat) :
    ∀ cs : Bytes, cs.length ≤ n → ∀ items out, scanStringItems cs = some (items, out) →
      ∃ p, cs = p ++ out ∧ ∀ out1, scanStringItems (p ++ out1) = some (items, out1) := by
  induction n with
  | zero =>
    intro cs hn items out h
    have : cs = [] := List.length_eq_zero.mp (Nat.le_zero.mp hn)
    subst this
    rw [scanStringItems.eq_def] at h
    cases h
  | succ n ih =>
    intro cs hn items out h
    rw [scanStringItems.eq_def] at h
    cases cs with
    | nil => cases h
    | cons c rest =>
      simp only at h
      by_cases hq : c = '"'
      · rw [if_pos hq] at h
        simp only [Option.some.injEq, Prod.mk.injEq] at h
        obtain ⟨rfl, rfl⟩ := h
        refine ⟨[c], rfl, fun out1 => ?_⟩
        rw [scanStringItems.eq_def]
        simp [hq]
      · rw [if_neg hq] at h
        by_cases hb : c = '\\'
        · rw [if_pos hb] at h
          cases rest with
          | nil => cases h
          | cons e rest1 =>
            simp only at h
            by_cases hu : e = 'u'
            · rw [if_pos hu] at h
              split at h
              · rename_i h1 h2 h3 h4 rest2
                split at h
                · rename_i k items0 out0 hh hs
                  simp only [Option.some.injEq, Prod.mk.injEq] at h
                  obtain ⟨rfl, rfl⟩ := h
                  obtain ⟨p, hp, hp1⟩ := ih rest2
                    (by simp only [List.length_cons] at hn; omega) items0 out0 hs
                  refine ⟨c :: e :: h1 :: h2 :: h3 :: h4 :: p, by simp [hp], fun out1 => ?_⟩
                  rw [scanStringItems.eq_def]
                  simp [hq, hb, hu, hh, hp1 out1]
                · cases h
              · cases h
            · rw [if_neg hu] at h
              split at h
              · rename_i ch items0 out0 hh hs
                simp only [Option.some.injEq, Prod.mk.injEq] at h
                obtain ⟨rfl, rfl⟩ := h
                obtain ⟨p, hp, hp1⟩ := ih rest1
                  (by simp only [List.length_cons] at hn; omega) items0 out0 hs
                refine ⟨c :: e :: p, by simp [hp], fun out1 => ?_⟩
                rw [scanStringItems.eq_def]
                simp [hq, hb, hu, hh, hp1 out1]
              · cases h
        · rw [if_neg hb] at h
          by_cases hc : c.toNat < 32
          · rw [if_pos hc] at h
            cases h
          · rw [if_neg hc] at h
            split at h
            · rename_i items0 out0 hs
              simp only [Option.some.injEq, Prod.mk.injEq] at h
              obtain ⟨rfl, rfl⟩ := h
              obtain ⟨p, hp, hp1⟩ := ih rest
                (by simp only [List.length_cons] at hn; omega) items0 out0 hs
              refine ⟨c :: p, by simp [hp], fun out1 => ?_⟩
              rw [scanStringItems.eq_def]
              simp [hq, hb, hc, hp1 out1]
            · cases h

theorem scanString_append (cs : Bytes) (s : String) (out : Bytes)
    (h : scanString cs = some (s, out)) :
    ∃ p, cs = p ++ out ∧ ∀ out1, scanString (p ++ out1) = some (s, out1) := by
  unfold scanString at h
  split at h
  · rename_i items out0 hs
    simp only [Option.some.injEq, Prod.mk.injEq] at h
    obtain ⟨rfl, rfl⟩ := h
    obtain ⟨p, hp, hp1⟩ := scanStringItems_append_aux cs.length cs (le_refl _) items out0 hs
    refine ⟨p, hp, fun out1 => ?_⟩
    unfold scanString
    rw [hp1 out1]
  · cases h

theorem sameStart_append (q out out1 : Bytes) (h : sameStart out out1) :
    sameStart (q ++ out) (q ++ out1) := by
  cases q with
  | nil => exact h
  | cons c q => exact Or.inr rfl

theorem sameStart_nil (out1 : Bytes) (h : sameStart [] out1) : out1 = [] := by
  rcases h with h | h
  · exact h
  · cases out1 with
    | nil => rfl
    | cons c s => cases h

theorem sameStart_cons (c : Char) (cs out1 : Bytes) (h : sameStart (c :: cs) out1) :
    out1 = [] ∨ ∃ s, out1 = c :: s := by
  rcases h with h | h
  · exact Or.inl h
  · cases out1 with
    | nil => exact Or.inl rfl
    | cons d s =>
      simp only [List.head?_cons, Option.some.injEq] at h
      exact Or.inr ⟨s, by rw [h]⟩

theorem skipDigits_append (cs : Bytes) :
    ∃ p, cs = p ++ skipDigits cs ∧
      ∀ out1, sameStart (skipDigits cs) out1 → skipDigits (p ++ out1) = out1 := by
  induction cs with
  | nil =>
    refine ⟨[], rfl, fun out1 h => ?_⟩
    rw [skipDigits] at h
    rw [sameStart_nil out1 h]
    rfl
  | cons c cs ih =>
    by_cases hd : c.isDigit = true
    · obtain ⟨p, hp, hp1⟩ := ih
      have hs : skipDigits (c :: cs) = skipDigits cs := by rw [skipDigits, if_pos hd]
      rw [hs]
      refine ⟨c :: p, by rw [List.cons_append, ← hp], fun out1 h => ?_⟩
      rw [List.cons_append, skipDigits, if_pos hd]
      exact hp1 out1 h
    · have hs : skipDigits (c :: cs) = c :: cs := by rw [skipDigits, if_neg hd]
      rw [hs]
      refine ⟨[], rfl, fun out1 h => ?_⟩
      rcases sameStart_cons c cs out1 h with rfl | ⟨s, rfl⟩
      · rfl
      · rw [List.nil_append, skipDigits, if_neg hd]

theorem digits1_append (cs out : Bytes) (h : digits1 cs = some out) :
    ∃ p, cs = p ++ out ∧ p ≠ [] ∧
      ∀ out1, sameStart out out1 → digits1 (p ++ out1) = some out1 := by
  cases cs with
  | nil => rw [digits1] at h; cases h
  | cons c cs =>
    rw [digits1] at h
    by_cases hd : c.isDigit = true
    · rw [if_pos hd] at h
      simp only [Option.some.injEq] at h
      subst h
      obtain ⟨p, hp, hp1⟩ := skipDigits_append cs
      refine ⟨c :: p, by rw [List.cons_append, ← hp], by simp, fun out1 h1 => ?_⟩
      rw [List.cons_append, digits1, if_pos hd, hp1 out1 h1]
    · rw [if_neg hd] at h
      cases h

theorem scanFrac_append (cs out : Bytes) (h : scanFrac cs = some out) :
    ∃ p, cs = p ++ out ∧ ∀ out1, sameStart out out1 → scanFrac (p ++ out1) = some out1 := by
  cases cs with
  | nil =>
    rw [scanFrac] at h
    simp only [Option.some.injEq] at h
    subst h
    refine ⟨[], rfl, fun out1 h1 => ?_⟩
    rw [sameStart_nil out1 h1]
    rfl
  | cons c rest =>
    rw [scanFrac] at h
    by_cases hc : c = '.'
    · rw [if_pos hc] at h
      obtain ⟨p, hp, _, hp1⟩ := digits1_append rest out h
      refine ⟨c :: p, by rw [List.cons_append, ← hp], fun out1 h1 => ?_⟩
      rw [List.cons_append, scanFrac, if_pos hc, hp1 out1 h1]
    · rw [if_neg hc] at h
      simp only [Option.some.injEq] at h
      subst h
      refine ⟨[], rfl, fun out1 h1 => ?_⟩
      rcases sameStart_cons c rest out1 h1 with rfl | ⟨s, rfl⟩
      · rfl
      · rw [List.nil_append, scanFrac, if_neg hc]

theorem scanExp_append (cs out : Bytes) (h : scanExp cs = some out) :
    ∃ p, cs = p ++ out ∧ ∀ out1, sameStart out out1 → scanExp (p ++ out1) = some out1 := by
  rw [scanExp.eq_def] at h
  cases cs with
  | nil =>
    simp only [Option.some.injEq] at h
    subst h
    refine ⟨[], rfl, fun out1 h1 => ?_⟩
    rw [sameStart_nil out1 h1]
    rfl
  | cons c rest =>
    simp only at h
    by_cases hc : c = 'e' ∨ c = 'E'
    · rw [if_pos hc] at h
      cases rest with
      | nil => cases h
      | cons s rest1 =>
        simp only at h
        by_cases hs : s = '+' ∨ s = '-'
        · rw [if_pos hs] at h
          obtain ⟨p, hp, _, hp1⟩ := digits1_append rest1 out h
          refine ⟨c :: s :: p, by rw [List.cons_append, List.cons_append, ← hp],
            fun out1 h1 => ?_⟩
          rw [List.cons_append, List.cons_append, scanExp.eq_def]
          simp only
          rw [if_pos hc, if_pos hs, hp1 out1 h1]
        · rw [if_neg hs] at h
          obtain ⟨p, hp, hne, hp1⟩ := digits1_append (s :: rest1) out h
          refine ⟨c :: p, by rw [List.cons_append, ← hp], fun out1 h1 => ?_⟩
          cases p with
          | nil => exact absurd rfl hne
          | cons s1 p1 =>
            have hs1 : s1 = s := by
              rw [List.cons_append] at hp
              exact (List.cons.inj hp).1.symm
            subst hs1
            rw [List.cons_append, List.cons_append, scanExp.eq_def]
            simp only
            rw [if_pos hc, if_neg hs, ← List.cons_append, hp1 out1 h1]
    · rw [if_neg hc] at h
      simp only [Option.some.injEq] at h
      subst h
      refine ⟨[], rfl, fun out1 h1 => ?_⟩
      rcases sameStart_cons c rest out1 h1 with rfl | ⟨s, rfl⟩
      · rfl
      · rw [List.nil_append, scanExp.eq_def]
        simp only
        rw [if_neg hc]

theorem scanFracExp_append (cs out : Bytes) (h : scanFracExp cs = some out) :
    ∃ p, cs = p ++ out ∧ ∀ out1, sameStart out out1 → scanFracExp (p ++ out1) = some out1 := by
  unfold scanFracExp at h
  split at h
  · cases h
  · rename_i cs1 hf
    obtain ⟨p1, hp1, hq1⟩ := scanFrac_append cs cs1 hf
    obtain ⟨p2, hp2, hq2⟩ := scanExp_append cs1 out h
    refine ⟨p1 ++ p2, by rw [List.append_assoc, ← hp2, ← hp1], fun out1 h1 => ?_⟩
    unfold scanFracExp
    have hs : sameStart cs1 (p2 ++ out1) := by
      rw [hp2]
      exact sameStart_append p2 out out1 h1
    rw [List.append_assoc, hq1 (p2 ++ out1) hs]
    exact hq2 out1 h1

theorem scanFracExp_skipDigits_append (cs out : Bytes)
    (h : scanFracExp (skipDigits cs) = some out) :
    ∃ p, cs = p ++ out ∧
      ∀ out1, sameStart out out1 → scanFracExp (skipDigits (p ++ out1)) = some out1 := by
  obtain ⟨p1, hp1, hq1⟩ := skipDigits_append cs
  obtain ⟨p2, hp2, hq2⟩ := scanFracExp_append (skipDigits cs) out h
  refine ⟨p1 ++ p2, by rw [List.append_assoc, ← hp2, ← hp1], fun out1 h1 => ?_⟩
  have hs : sameStart (skipDigits cs) (p2 ++ out1) := by
    rw [hp2]
    exact sameStart_append p2 out out1 h1
  rw [List.append_assoc, hq1 (p2 ++ out1) hs]
  exact hq2 out1 h1

/-- A number is read from its own text, whatever follows it starts alike. -/
theorem scanNumber_append (cs out : Bytes) (h : scanNumber cs = some out) :
    ∃ c p, cs = (c :: p) ++ out ∧ (c = '-' ∨ c.isDigit = true) ∧
      ∀ out1, sameStart out out1 → scanNumber ((c :: p) ++ out1) = some out1 := by
  rw [scanNumber.eq_def] at h
  cases cs with
  | nil => cases h
  | cons c rest =>
    simp only at h
    by_cases hm : c = '-'
    · rw [if_pos hm] at h
      cases rest with
      | nil => cases h
      | cons d rest1 =>
        simp only at h
        by_cases h0 : d = '0'
        · rw [if_pos h0] at h
          obtain ⟨p, hp, hq⟩ := scanFracExp_append rest1 out h
          refine ⟨c, d :: p, by simp [hp], Or.inl hm, fun out1 h1 => ?_⟩
          rw [List.cons_append, List.cons_append, scanNumber.eq_def]
          simp only
          rw [if_pos hm, if_pos h0, hq out1 h1]
        · rw [if_neg h0] at h
          by_cases hd : d.isDigit = true
          · rw [if_pos hd] at h
            obtain ⟨p, hp, hq⟩ := scanFracExp_skipDigits_append rest1 out h
            refine ⟨c, d :: p, by simp [hp], Or.inl hm, fun out1 h1 => ?_⟩
            rw [List.cons_append, List.cons_append, scanNumber.eq_def]
            simp only
            rw [if_pos hm, if_neg h0, if_pos hd, hq out1 h1]
          · rw [if_neg hd] at h
            cases h
    · rw [if_neg hm] at h
      by_cases h0 : c = '0'
      · rw [if_pos h0] at h
        obtain ⟨p, hp, hq⟩ := scanFracExp_append rest out h
        refine ⟨c, p, by simp [hp], Or.inr (by rw [h0]; rfl), fun out1 h1 => ?_⟩
        rw [List.cons_append, scanNumber.eq_def]
        simp only
        rw [if_neg hm, if_pos h0, hq out1 h1]
      · rw [if_neg h0] at h
        by_cases hd : c.isDigit = true
        · rw [if_pos hd] at h
          obtain ⟨p, hp, hq⟩ := scanFracExp_skipDigits_append rest out h
          refine ⟨c, p, by simp [hp], Or.inr hd, fun out1 h1 => ?_⟩
          rw [List.cons_append, scanNumber.eq_def]
          simp only
          rw [if_neg hm, if_neg h0, if_pos hd, hq out1 h1]
        · rw [if_neg hd] at h
          cases h

theorem isSpace_of_skipSpace (cs : Bytes) (d : Char) (rest : Bytes)
    (h : skipSpace cs = d :: rest) : isSpace d = false := by
  induction cs with
  | nil => rw [skipSpace] at h; cases h
  | cons c cs ih =>
    rw [skipSpace] at h
    by_cases hc : isSpace c = true
    · rw [if_pos hc] at h
      exact ih h
    · rw [if_neg hc] at h
      obtain ⟨rfl, _⟩ := List.cons.inj h
      simpa using hc

theorem skipSpace_append (cs : Bytes) :
    ∃ w, cs = w ++ skipSpace cs ∧
      ∀ c r, isSpace c = false → skipSpace (w ++ c :: r) = c :: r := by
  induction cs with
  | nil =>
    refine ⟨[], rfl, fun c r hc => ?_⟩
    rw [List.nil_append, skipSpace, if_neg (by simp [hc])]
  | cons c cs ih =>
    by_cases hc : isSpace c = true
    · obtain ⟨w, hw, hw1⟩ := ih
      have hs : skipSpace (c :: cs) = skipSpace cs := by rw [skipSpace, if_pos hc]
      rw [hs]
      refine ⟨c :: w, by rw [List.cons_append, ← hw], fun c1 r hc1 => ?_⟩
      rw [List.cons_append, skipSpace, if_pos hc]
      exact hw1 c1 r hc1
    · have hs : skipSpace (c :: cs) = c :: cs := by rw [skipSpace, if_neg hc]
      rw [hs]
      refine ⟨[], rfl, fun c1 r hc1 => ?_⟩
      rw [List.nil_append, skipSpace, if_neg (by simp [hc1])]

theorem skipSpace_of_not_space (c : Char) (r : Bytes) (hc : isSpace c = false) :
    skipSpace (c :: r) = c :: r := by
  rw [skipSpace, if_neg (by simp [hc])]

theorem consumed_append (p out : Bytes) : consumed (p ++ out) out = p := by
  unfold consumed
  simp

theorem expect_append (lit cs out : Bytes) (h : expect lit cs = some out) :
    cs = lit ++ out ∧ ∀ out1, expect lit (lit ++ out1) = some out1 := by
  induction lit generalizing cs with
  | nil =>
    rw [expect] at h
    simp only [Option.some.injEq] at h
    subst h
    exact ⟨rfl, fun out1 => by rw [List.nil_append, expect]⟩
  | cons l lit ih =>
    cases cs with
    | nil => rw [expect] at h; cases h
    | cons c cs =>
      rw [expect] at h
      by_cases hl : l = c
      · rw [if_pos hl] at h
        obtain ⟨h1, h2⟩ := ih cs h
        subst hl
        refine ⟨by rw [h1, List.cons_append], fun out1 => ?_⟩
        rw [List.cons_append, expect, if_pos rfl]
        exact h2 out1
      · rw [if_neg hl] at h
        cases h

theorem isSpace_of_isDigit (c : Char) (h : c.isDigit = true) : isSpace c = false := by
  by_contra hs
  have hs1 : isSpace c = true := by simpa using hs
  unfold isSpace at hs1
  simp only [Bool.or_eq_true, decide_eq_true_eq] at hs1
  rcases hs1 with ((rfl | rfl) | rfl) | rfl <;> exact absurd h (by decide)

/-- A text from which the scanner reads `v` alone is a valid input with value `v`. -/
theorem scan_of_readsFrom (depth : Nat) (c : Char) (p : Bytes) (v : JValue) (out : Bytes)
    (hc : isSpace c = false) (h : ReadsFrom scanValue depth (c :: p) v out) :
    scan (c :: p) = some v := by
  unfold scan
  rw [skipSpace_of_not_space c p hc]
  have h1 := h ((c :: p).length + 1) 0 [] (Nat.le_succ _) (Nat.zero_le _) (Or.inl rfl)
  rw [List.append_nil] at h1
  rw [h1]
  rfl

theorem within_of_eq (t whole before after : Bytes) (h : whole = before ++ t ++ after) :
    Within t whole :=
  ⟨before, after, h⟩

theorem within_inside (t x whole before after : Bytes) (h : Within t x)
    (hx : whole = before ++ x ++ after) : Within t whole := by
  obtain ⟨b1, a1, rfl⟩ := h
  exact ⟨before ++ b1, a1 ++ after, by rw [hx]; simp⟩

theorem fuel_pos (t : Bytes) (c : Char) (p : Bytes) (fuel : Nat) (ht : t = c :: p)
    (h : t.length ≤ fuel) : ∃ fuel1, fuel = fuel1 + 1 ∧ p.length ≤ fuel1 := by
  subst ht
  cases fuel with
  | zero => simp at h
  | succ n => exact ⟨n, rfl, by simpa using h⟩

theorem scanValue_local_step (fuel : Nat) (ihE : ElemsLocal fuel) (ihM : MembersLocal fuel) :
    ValueLocal (fuel + 1) := by
  intro depth cs v out h
  cases cs with
  | nil => simp [scanValue] at h
  | cons c rest =>
    simp only [scanValue] at h
    by_cases hq : c = '"'
    · rw [if_pos hq] at h
      split at h
      · rename_i s out0 hs
        simp only [Option.some.injEq, Prod.mk.injEq] at h
        obtain ⟨rfl, rfl⟩ := h
        obtain ⟨p, hp, hp1⟩ := scanString_append rest s out0 hs
        refine ⟨c, p, by rw [hp, List.cons_append], by rw [hq]; rfl, ?_,
          fun e he => by simp [childTexts] at he⟩
        intro f1 d1 out1 hf _ _
        obtain ⟨f2, rfl, _⟩ := fuel_pos _ c p f1 rfl hf
        simp only [List.cons_append, scanValue]
        rw [if_pos hq, hp1 out1]
      · cases h
    · rw [if_neg hq] at h
      by_cases ha : c = '['
      · rw [if_pos ha] at h
        by_cases hmax : maxNestingDepth ≤ depth
        · rw [if_pos hmax] at h
          cases h
        · rw [if_neg hmax] at h
          obtain ⟨w, hw, hw1⟩ := skipSpace_append rest
          split at h
          · cases h
          · rename_i d0 rest1 hsk
            have hd0 := isSpace_of_skipSpace rest d0 rest1 hsk
            rw [hsk] at hw
            by_cases hc : d0 = ']'
            · rw [if_pos hc] at h
              simp only [Option.some.injEq, Prod.mk.injEq] at h
              obtain ⟨rfl, rfl⟩ := h
              refine ⟨c, w ++ [d0], by rw [hw]; simp, by rw [ha]; rfl, ?_,
                fun e he => by simp [childTexts] at he⟩
              intro f1 d1 out1 hf hd _
              obtain ⟨f2, rfl, _⟩ := fuel_pos _ c (w ++ [d0]) f1 rfl hf
              have hmax1 : ¬ maxNestingDepth ≤ d1 := by omega
              have e : (c :: (w ++ [d0])) ++ out1 = c :: (w ++ d0 :: out1) := by simp
              rw [e]
              simp only [scanValue]
              rw [if_neg hq, if_pos ha, if_neg hmax1, hw1 d0 out1 hd0]
              simp only
              rw [if_pos hc]
            · rw [if_neg hc] at h
              split at h
              · rename_i elems out0 hel
                simp only [Option.some.injEq, Prod.mk.injEq] at h
                obtain ⟨rfl, rfl⟩ := h
                obtain ⟨c1, q, hcq, _, hread, hkids⟩ := ihE (depth + 1) _ elems out0 hel
                have hc1 : c1 = d0 := by
                  rw [List.cons_append] at hcq
                  exact (List.cons.inj hcq).1.symm
                subst hc1
                refine ⟨c, w ++ (c1 :: q), by rw [hw, hcq]; simp, by rw [ha]; rfl, ?_,
                  fun e he => ⟨(hkids e he).1,
                    within_inside _ _ _ (c :: w) [] (hkids e he).2 (by simp)⟩⟩
                intro f1 d1 out1 hf hd hs
                obtain ⟨f2, rfl, hf2⟩ := fuel_pos _ c (w ++ (c1 :: q)) f1 rfl hf
                have hmax1 : ¬ maxNestingDepth ≤ d1 := by omega
                have hel1 := hread f2 (d1 + 1) out1
                  (by simp only [List.length_append] at hf2; omega) (by omega) hs
                have e : (c :: (w ++ (c1 :: q))) ++ out1 = c :: (w ++ c1 :: (q ++ out1)) := by
                  simp
                rw [e]
                simp only [scanValue]
                rw [if_neg hq, if_pos ha, if_neg hmax1, hw1 c1 (q ++ out1) hd0]
                simp only
                rw [if_neg hc]
                rw [List.cons_append] at hel1
                rw [hel1]
              · cases h
      · rw [if_neg ha] at h
        by_cases ho : c = '{'
        · rw [if_pos ho] at h
          by_cases hmax : maxNestingDepth ≤ depth
          · rw [if_pos hmax] at h
            cases h
          · rw [if_neg hmax] at h
            obtain ⟨w, hw, hw1⟩ := skipSpace_append rest
            split at h
            · cases h
            · rename_i d0 rest1 hsk
              have hd0 := isSpace_of_skipSpace rest d0 rest1 hsk
              rw [hsk] at hw
              by_cases hc : d0 = '}'
              · rw [if_pos hc] at h
                simp only [Option.some.injEq, Prod.mk.injEq] at h
                obtain ⟨rfl, rfl⟩ := h
                refine ⟨c, w ++ [d0], by rw [hw]; simp, by rw [ho]; rfl, ?_,
                  fun e he => by simp [childTexts] at he⟩
                intro f1 d1 out1 hf hd _
                obtain ⟨f2, rfl, _⟩ := fuel_pos _ c (w ++ [d0]) f1 rfl hf
                have hmax1 : ¬ maxNestingDepth ≤ d1 := by omega
                have e : (c :: (w ++ [d0])) ++ out1 = c :: (w ++ d0 :: out1) := by simp
                rw [e]
                simp only [scanValue]
                rw [if_neg hq, if_neg ha, if_pos ho, if_neg hmax1, hw1 d0 out1 hd0]
                simp only
                rw [if_pos hc]
              · rw [if_neg hc] at h
                split at h
                · rename_i members out0 hel
                  simp only [Option.some.injEq, Prod.mk.injEq] at h
                  obtain ⟨rfl, rfl⟩ := h
                  obtain ⟨c1, q, hcq, _, hread, hkids⟩ := ihM (depth + 1) _ members out0 hel
                  have hc1 : c1 = d0 := by
                    rw [List.cons_append] at hcq
                    exact (List.cons.inj hcq).1.symm
                  subst hc1
                  refine ⟨c, w ++ (c1 :: q), by rw [hw, hcq]; simp, by rw [ho]; rfl, ?_, ?_⟩
                  swap
                  · intro e he
                    simp only [childTexts, List.mem_map] at he
                    obtain ⟨m, hm, rfl⟩ := he
                    exact ⟨(hkids m hm).1,
                      within_inside _ _ _ (c :: w) [] (hkids m hm).2 (by simp)⟩
                  intro f1 d1 out1 hf hd hs
                  obtain ⟨f2, rfl, hf2⟩ := fuel_pos _ c (w ++ (c1 :: q)) f1 rfl hf
                  have hmax1 : ¬ maxNestingDepth ≤ d1 := by omega
                  have hel1 := hread f2 (d1 + 1) out1
                    (by simp only [List.length_append] at hf2; omega) (by omega) hs
                  have e : (c :: (w ++ (c1 :: q))) ++ out1 = c :: (w ++ c1 :: (q ++ out1)) := by
                    simp
                  rw [e]
                  simp only [scanValue]
                  rw [if_neg hq, if_neg ha, if_pos ho, if_neg hmax1, hw1 c1 (q ++ out1) hd0]
                  simp only
                  rw [if_neg hc]
                  rw [List.cons_append] at hel1
                  rw [hel1]
                · cases h
        · rw [if_neg ho] at h
          by_cases hn : c = 'n'
          · rw [if_pos hn] at h
            split at h
            · rename_i out0 hex
              simp only [Option.some.injEq, Prod.mk.injEq] at h
              obtain ⟨rfl, rfl⟩ := h
              obtain ⟨hr, hr1⟩ := expect_append _ rest out0 hex
              refine ⟨c, ['u', 'l', 'l'], by rw [hr]; rfl, by rw [hn]; rfl, ?_,
                fun e he => by simp [childTexts] at he⟩
              intro f1 d1 out1 hf _ _
              obtain ⟨f2, rfl, _⟩ := fuel_pos _ c ['u', 'l', 'l'] f1 rfl hf
              simp only [List.cons_append, List.nil_append, scanValue]
              rw [if_neg hq, if_neg ha, if_neg ho, if_pos hn]
              have := hr1 out1
              simp only [List.cons_append, List.nil_append] at this
              rw [this]
            · cases h
          · rw [if_neg hn] at h
            by_cases ht : c = 't'
            · rw [if_pos ht] at h
              split at h
              · rename_i out0 hex
                simp only [Option.some.injEq, Prod.mk.injEq] at h
                obtain ⟨rfl, rfl⟩ := h
                obtain ⟨hr, hr1⟩ := expect_append _ rest out0 hex
                refine ⟨c, ['r', 'u', 'e'], by rw [hr]; rfl, by rw [ht]; rfl, ?_,
                fun e he => by simp [childTexts] at he⟩
                intro f1 d1 out1 hf _ _
                obtain ⟨f2, rfl, _⟩ := fuel_pos _ c ['r', 'u', 'e'] f1 rfl hf
                simp only [List.cons_append, List.nil_append, scanValue]
                rw [if_neg hq, if_neg ha, if_neg ho, if_neg hn, if_pos ht]
                have := hr1 out1
                simp only [List.cons_append, List.nil_append] at this
                rw [this]
              · cases h
            · rw [if_neg ht] at h
              by_cases hf0 : c = 'f'
              · rw [if_pos hf0] at h
                split at h
                · rename_i out0 hex
                  simp only [Option.some.injEq, Prod.mk.injEq] at h
                  obtain ⟨rfl, rfl⟩ := h
                  obtain ⟨hr, hr1⟩ := expect_append _ rest out0 hex
                  refine ⟨c, ['a', 'l', 's', 'e'], by rw [hr]; rfl, by rw [hf0]; rfl, ?_,
                fun e he => by simp [childTexts] at he⟩
                  intro f1 d1 out1 hf _ _
                  obtain ⟨f2, rfl, _⟩ := fuel_pos _ c ['a', 'l', 's', 'e'] f1 rfl hf
                  simp only [List.cons_append, List.nil_append, scanValue]
                  rw [if_neg hq, if_neg ha, if_neg ho, if_neg hn, if_neg ht, if_pos hf0]
                  have := hr1 out1
                  simp only [List.cons_append, List.nil_append] at this
                  rw [this]
                · cases h
              · rw [if_neg hf0] at h
                split at h
                · rename_i out0 hnum
                  simp only [Option.some.injEq, Prod.mk.injEq] at h
                  obtain ⟨rfl, rfl⟩ := h
                  obtain ⟨c0, p0, hcp, hstart, hnum1⟩ := scanNumber_append _ out0 hnum
                  rw [List.cons_append] at hcp
                  obtain ⟨hc0, hrest⟩ := List.cons.inj hcp
                  subst hc0
                  have hsp : isSpace c = false := by
                    rcases hstart with hm | hd
                    · rw [hm]; rfl
                    · exact isSpace_of_isDigit c hd
                  refine ⟨c, p0, by rw [hrest, List.cons_append], hsp, ?_,
                    fun e he => by simp [childTexts] at he⟩
                  intro f1 d1 out1 hf _ hs
                  obtain ⟨f2, rfl, _⟩ := fuel_pos _ c p0 f1 rfl hf
                  have hn1 := hnum1 out1 hs
                  rw [List.cons_append] at hn1
                  simp only [List.cons_append, scanValue]
                  rw [if_neg hq, if_neg ha, if_neg ho, if_neg hn, if_neg ht, if_neg hf0, hn1]
                · cases h

theorem scanElems_local_step (fuel : Nat) (ihV : ValueLocal fuel) (ihE : ElemsLocal fuel) :
    ElemsLocal (fuel + 1) := by
  intro depth cs elems out h
  simp only [scanElems] at h
  split at h
  · cases h
  · rename_i v out0 hv
    obtain ⟨c, p, hcp, hsp, hread, _⟩ := ihV depth cs v out0 hv
    have htext : consumed cs out0 = c :: p := by rw [hcp, consumed_append]
    rw [htext] at h
    obtain ⟨w, hw, hw1⟩ := skipSpace_append out0
    split at h
    · cases h
    · rename_i d0 rest hsk
      have hd0 := isSpace_of_skipSpace out0 d0 rest hsk
      rw [hsk] at hw
      by_cases hc : d0 = ']'
      · rw [if_pos hc] at h
        simp only [Option.some.injEq, Prod.mk.injEq] at h
        obtain ⟨rfl, rfl⟩ := h
        refine ⟨c, p ++ (w ++ [d0]), by rw [hcp, hw]; simp, hsp, ?_, ?_⟩
        · intro f1 d1 out1 hf hd _
          obtain ⟨f2, rfl, hf2⟩ := fuel_pos _ c (p ++ (w ++ [d0])) f1 rfl hf
          have e : (c :: (p ++ (w ++ [d0]))) ++ out1 = (c :: p) ++ (w ++ d0 :: out1) := by
            simp
          have hv1 := hread f2 d1 (w ++ d0 :: out1)
            (by simp only [List.length_append, List.length_cons] at hf2 ⊢; omega) hd
            (by rw [hw]; exact sameStart_append w _ _ (Or.inr rfl))
          rw [e]
          simp only [scanElems]
          rw [hv1]
          simp only
          rw [hw1 d0 out1 hd0]
          simp only
          rw [if_pos hc, consumed_append]
        · intro e he
          simp only [List.mem_singleton] at he
          subst he
          exact ⟨scan_of_readsFrom depth c p v _ hsp hread,
            within_of_eq _ _ [] (w ++ [d0]) (by simp)⟩
      · rw [if_neg hc] at h
        by_cases hk : d0 = ','
        · rw [if_pos hk] at h
          split at h
          · rename_i elems0 out2 hel
            simp only [Option.some.injEq, Prod.mk.injEq] at h
            obtain ⟨rfl, rfl⟩ := h
            obtain ⟨c2, q2, hcq2, hsp2, hread2, hscan2⟩ := ihE depth _ elems0 out2 hel
            obtain ⟨w2, hw2, hw3⟩ := skipSpace_append rest
            rw [hcq2] at hw2
            refine ⟨c, p ++ (w ++ d0 :: (w2 ++ c2 :: q2)), by rw [hcp, hw, hw2]; simp, hsp,
              ?_, ?_⟩
            · intro f1 d1 out1 hf hd hs
              obtain ⟨f2, rfl, hf2⟩ :=
                fuel_pos _ c (p ++ (w ++ d0 :: (w2 ++ c2 :: q2))) f1 rfl hf
              have e : (c :: (p ++ (w ++ d0 :: (w2 ++ c2 :: q2)))) ++ out1 =
                  (c :: p) ++ (w ++ d0 :: (w2 ++ c2 :: (q2 ++ out1))) := by simp
              have hv1 := hread f2 d1 (w ++ d0 :: (w2 ++ c2 :: (q2 ++ out1)))
                (by simp only [List.length_append, List.length_cons] at hf2 ⊢; omega) hd
                (by rw [hw]; exact sameStart_append w _ _ (Or.inr rfl))
              have hel1 := hread2 f2 d1 out1
                (by simp only [List.length_append, List.length_cons] at hf2 ⊢; omega) hd hs
              rw [List.cons_append] at hel1
              rw [e]
              simp only [scanElems]
              rw [hv1]
              simp only
              rw [hw1 d0 _ hd0]
              simp only
              rw [if_neg hc, if_pos hk, hw3 c2 _ hsp2, hel1, consumed_append]
            · intro e he
              rcases List.mem_cons.mp he with rfl | he1
              · exact ⟨scan_of_readsFrom depth c p v _ hsp hread,
                  within_of_eq _ _ [] (w ++ d0 :: (w2 ++ c2 :: q2)) (by simp)⟩
              · exact ⟨(hscan2 e he1).1,
                  within_inside _ _ _ (c :: (p ++ (w ++ d0 :: w2))) [] (hscan2 e he1).2
                    (by simp)⟩
          · cases h
        · rw [if_neg hk] at h
          cases h

theorem scanMembers_local_step (fuel : Nat) (ihV : ValueLocal fuel)
    (ihM : MembersLocal fuel) : MembersLocal (fuel + 1) := by
  intro depth cs members out h
  cases cs with
  | nil => simp [scanMembers] at h
  | cons q0 rest =>
    simp only [scanMembers] at h
    by_cases hq : q0 = '"'
    · rw [if_pos hq] at h
      split at h
      · cases h
      · rename_i key outs hkey
        obtain ⟨ps, hps, hps1⟩ := scanString_append rest key outs hkey
        obtain ⟨w1, hw1, hw1a⟩ := skipSpace_append outs
        split at h
        · cases h
        · rename_i colon rest1 hsk1
          have hcolon := isSpace_of_skipSpace outs colon rest1 hsk1
          rw [hsk1] at hw1
          by_cases hcol : colon = ':'
          · rw [if_pos hcol] at h
            obtain ⟨w2, hw2, hw2a⟩ := skipSpace_append rest1
            split at h
            · cases h
            · rename_i v out1 hv
              obtain ⟨c, p, hcp, hsp, hread, _⟩ := ihV depth _ v out1 hv
              have htext : consumed (skipSpace rest1) out1 = c :: p := by
                rw [hcp, consumed_append]
              rw [htext] at h
              rw [hcp] at hw2
              obtain ⟨w3, hw3, hw3a⟩ := skipSpace_append out1
              split at h
              · cases h
              · rename_i d0 rest2 hsk3
                have hd0 := isSpace_of_skipSpace out1 d0 rest2 hsk3
                rw [hsk3] at hw3
                by_cases hc : d0 = '}'
                · rw [if_pos hc] at h
                  simp only [Option.some.injEq, Prod.mk.injEq] at h
                  obtain ⟨rfl, rfl⟩ := h
                  refine ⟨q0, ps ++ (w1 ++ colon :: (w2 ++ c :: (p ++ (w3 ++ [d0])))),
                    by rw [hps, hw1, hw2, hw3]; simp, by rw [hq]; rfl, ?_, ?_⟩
                  · intro f1 d1 out3 hf hd _
                    obtain ⟨f2, rfl, hf2⟩ := fuel_pos _ q0 _ f1 rfl hf
                    have e : (q0 :: (ps ++ (w1 ++ colon :: (w2 ++ c :: (p ++ (w3 ++ [d0])))))) ++
                        out3 =
                        q0 :: (ps ++ (w1 ++ colon :: (w2 ++ c :: (p ++ (w3 ++ d0 :: out3))))) := by
                      simp
                    have hv1 := hread f2 d1 (w3 ++ d0 :: out3)
                      (by simp only [List.length_append, List.length_cons] at hf2 ⊢; omega) hd
                      (by rw [hw3]; exact sameStart_append w3 _ _ (Or.inr rfl))
                    rw [List.cons_append] at hv1
                    rw [e]
                    simp only [scanMembers]
                    rw [if_pos hq, hps1]
                    simp only
                    rw [hw1a colon _ hcolon]
                    simp only
                    rw [if_pos hcol, hw2a c _ hsp, hv1]
                    simp only
                    rw [hw3a d0 out3 hd0]
                    simp only
                    rw [if_pos hc, ← List.cons_append, consumed_append]
                  · intro m hm
                    simp only [List.mem_singleton] at hm
                    subst hm
                    exact ⟨scan_of_readsFrom depth c p v _ hsp hread,
                      within_of_eq _ _ (q0 :: (ps ++ (w1 ++ colon :: w2))) (w3 ++ [d0])
                        (by simp)⟩
                · rw [if_neg hc] at h
                  by_cases hk : d0 = ','
                  · rw [if_pos hk] at h
                    split at h
                    · rename_i members0 out2 hmem
                      simp only [Option.some.injEq, Prod.mk.injEq] at h
                      obtain ⟨rfl, rfl⟩ := h
                      obtain ⟨c2, q2, hcq2, hsp2, hread2, hscan2⟩ :=
                        ihM depth _ members0 out2 hmem
                      obtain ⟨w4, hw4, hw4a⟩ := skipSpace_append rest2
                      rw [hcq2] at hw4
                      refine ⟨q0,
                        ps ++ (w1 ++ colon :: (w2 ++ c :: (p ++ (w3 ++ d0 :: (w4 ++ c2 :: q2))))),
                        by rw [hps, hw1, hw2, hw3, hw4]; simp, by rw [hq]; rfl, ?_, ?_⟩
                      · intro f1 d1 out3 hf hd hs
                        obtain ⟨f2, rfl, hf2⟩ := fuel_pos _ q0 _ f1 rfl hf
                        have e : (q0 :: (ps ++ (w1 ++ colon :: (w2 ++ c ::
                            (p ++ (w3 ++ d0 :: (w4 ++ c2 :: q2))))))) ++ out3 =
                            q0 :: (ps ++ (w1 ++ colon :: (w2 ++ c ::
                              (p ++ (w3 ++ d0 :: (w4 ++ c2 :: (q2 ++ out3))))))) := by
                          simp
                        have hv1 := hread f2 d1 (w3 ++ d0 :: (w4 ++ c2 :: (q2 ++ out3)))
                          (by simp only [List.length_append, List.length_cons] at hf2 ⊢; omega)
                          hd (by rw [hw3]; exact sameStart_append w3 _ _ (Or.inr rfl))
                        rw [List.cons_append] at hv1
                        have hm1 := hread2 f2 d1 out3
                          (by simp only [List.length_append, List.length_cons] at hf2 ⊢; omega)
                          hd hs
                        rw [List.cons_append] at hm1
                        rw [e]
                        simp only [scanMembers]
                        rw [if_pos hq, hps1]
                        simp only
                        rw [hw1a colon _ hcolon]
                        simp only
                        rw [if_pos hcol, hw2a c _ hsp, hv1]
                        simp only
                        rw [hw3a d0 _ hd0]
                        simp only
                        rw [if_neg hc, if_pos hk, hw4a c2 _ hsp2, hm1, ← List.cons_append,
                          consumed_append]
                      · intro m hm
                        rcases List.mem_cons.mp hm with rfl | hm1
                        · exact ⟨scan_of_readsFrom depth c p v _ hsp hread,
                            within_of_eq _ _ (q0 :: (ps ++ (w1 ++ colon :: w2)))
                              (w3 ++ d0 :: (w4 ++ c2 :: q2)) (by simp)⟩
                        · exact ⟨(hscan2 m hm1).1,
                            within_inside _ _ _
                              (q0 :: (ps ++ (w1 ++ colon :: (w2 ++ c :: (p ++ (w3 ++ d0 :: w4))))))
                              [] (hscan2 m hm1).2 (by simp)⟩
                    · cases h
                  · rw [if_neg hk] at h
                    cases h
          · rw [if_neg hcol] at h
            cases h
    · rw [if_neg hq] at h
      cases h

/-- With any fuel, the scanner reads every value from its own text, and the text it
keeps with a value is a valid input for that value. -/
theorem scan_local (fuel : Nat) :
    ValueLocal fuel ∧ ElemsLocal fuel ∧ MembersLocal fuel := by
  induction fuel with
  | zero =>
    refine ⟨?_, ?_, ?_⟩
    · intro depth cs v out h
      simp [scanValue] at h
    · intro depth cs elems out h
      simp [scanElems] at h
    · intro depth cs members out h
      simp [scanMembers] at h
  | succ n ih =>
    exact ⟨scanValue_local_step n ih.2.1 ih.2.2, scanElems_local_step n ih.1 ih.2.1,
      scanMembers_local_step n ih.1 ih.2.2⟩

/-- The text kept with a value directly under the value of a valid input is a part of
the input, and is itself a valid input with that value: unmarshalling the
`json.RawMessage` of a child again gives what `decode` makes of the child. -/
theorem scan_childTexts (ord : MapOrder) (b : Bytes) (v : JValue) (h : scan b = some v) :
    ∀ e ∈ childTexts v,
      Within e.1 b ∧ scan e.1 = some e.2 ∧ unmarshal ord e.1 = decode ord e.2 := by
  unfold scan at h
  split at h
  · rename_i v0 out hv
    split at h
    · simp only [Option.some.injEq] at h
      subst h
      obtain ⟨c, p, hcp, _, _, hkids⟩ := (scan_local (b.length + 1)).1 0 _ v0 out hv
      obtain ⟨w, hw, _⟩ := skipSpace_append b
      intro e he
      refine ⟨within_inside _ _ _ w out (hkids e he).2 ?_, (hkids e he).1, ?_⟩
      · rw [List.append_assoc, ← hcp, ← hw]
      · unfold unmarshal
        rw [(hkids e he).1]
    · cases h
  · cases h

/-- Fuel one above the length of the input is enough: what the scanner reads with any
fuel, it reads with that much. -/
theorem scanValue_fuel_enough (b : Bytes) (fuel depth : Nat) (v : JValue) (out : Bytes)
    (h : scanValue fuel depth (skipSpace b) = some (v, out)) :
    scanValue (b.length + 1) depth (skipSpace b) = some (v, out) := by
  obtain ⟨c, p, hcp, _, hread, _⟩ := (scan_local fuel).1 depth _ v out h
  obtain ⟨w, hw, _⟩ := skipSpace_append b
  have hlen : (c :: p).length ≤ b.length + 1 := by
    have h1 : b.length = w.length + ((c :: p).length + out.length) := by
      conv_lhs => rw [hw, hcp]
      simp only [List.length_append]
    omega
  rw [hcp]
  exact hread (b.length + 1) depth out hlen (le_refl _) (Or.inr rfl)

/-- The children that `decode` hands to the recursive calls are what unmarshalling
their own texts gives. -/
theorem decodeElems_eq_unmarshal (ord : MapOrder) (elems : List (Bytes × JValue))
    (h : ∀ e ∈ elems, scan e.1 = some e.2) :
    decodeElems ord elems = elems.map (fun e => unmarshal ord e.1) := by
  rw [decodeElems_eq_map]
  apply List.map_congr_left
  intro e he
  rw [unmarshal_of_scan ord e.1 e.2 (h e he)]

/-- The statement of C1 with every child given by its value instead of its text. -/
theorem parseObject_name_with_children (g : Globals) (ord : MapOrder) (b : Bytes) (k : String)
    (t : Bytes) (cs : List (Bytes × JValue))
    (hm : 1 ≤ g.maxDepthLimit) (hk : k ∈ g.validObjectNames)
    (hb : scan b = some (JValue.object [(k, t, JValue.array cs)]))
    (hcs : ∀ c ∈ cs, (parseObject g (Object.new 1) (decode ord c.2)).2 = none) :
    ParseObjectFromJSON g ord b =
        Run.ret (some { Name := k, Level := 0,
                        Children := cs.map (fun c =>
                          (parseObject g (Object.new 1) (decode ord c.2)).1),
                        Arguments := "" }, none) ∧
      ∀ c ∈ cs, (parseObject g (Object.new 1) (decode ord c.2)).1.Level = 1 := by
  constructor
  · have hvalid : isObjectValid b = Run.ret none :=
      isObjectValid_of_scan b _ hb (by simp) (by simp) (by simp)
    have hlevel : ¬ (Object.new 0).Level > g.maxDepthLimit := by
      simp only [Object.new]
      omega
    have hkids : rangeChildren g { Object.new 0 with Name := k } (decodeElems ord cs) =
        ({ Name := k, Level := 0,
           Children := cs.map (fun c => (parseObject g (Object.new 1) (decode ord c.2)).1),
           Arguments := "" }, none) := by
      rw [rangeChildren_all_ok]
      · simp [Object.new, decodeElems_eq_map, List.map_map, Function.comp_def]
      · intro c hc
        rw [decodeElems_eq_map] at hc
        obtain ⟨c1, hc1, rfl⟩ := List.mem_map.mp hc
        exact hcs c1 hc1
    unfold ParseObjectFromJSON
    rw [hvalid, unmarshal_of_scan ord b _ hb,
      parseObject_not_string g (Object.new 0) _ _ hlevel (decode_object_asString ord _)]
    unfold parseObjectWithChildren
    rw [decode_object_asListMap, parseObjectWithChildrenOf, rangeListObject,
      isSupported_of_mem g k hk]
    simp only [hkids, rangeListObject]
  · intro c _
    rw [parseObject_level]
    rfl

/-! ## The package's tests -/

set_option maxRecDepth 100000 in
/-- The embedding returns what `TestObject` expects for the nested rule, for the rule
that is too deep and for the rule that is a list. -/
theorem testObject_expectations :
    ParseObjectFromJSON testGlobals MapOrder.source nestedInput =
        Run.ret (some
          { Name := "or", Level := 0,
            Children :=
              [{ Name := "user", Level := 1, Children := [], Arguments := "" },
               { Name := "and", Level := 1,
                 Children :=
                   [{ Name := "service", Level := 2, Children := [], Arguments := "" },
                    { Name := "opening-hours", Level := 2, Children := [],
                      Arguments := "\x7b\"closing\":\"20:00\",\"opening\":\"10:00\"\x7d" },
                    { Name := "relationship", Level := 2, Children := [],
                      Arguments := "\x7b\"levels\":[\"comprehensive\",\"parent\"]\x7d" }],
                 Arguments := "" }],
            Arguments := "" }, none) ∧
      ParseObjectFromJSON testGlobals MapOrder.source tooDeepInput =
        Run.ret (none, some (Err.object ObjectErr.maxDepthLimitExceeded)) ∧
      ParseObjectFromJSON testGlobals MapOrder.source rootListInput =
        Run.ret (none, some (Err.object (ObjectErr.notAcceptable rootListInput))) :=
  ⟨by rfl, by rfl, by rfl⟩

/-! ## The claims -/

/-- C1: for every registry, every maximum depth at least 1, every registered name `k`
and every list `c1..cn` of JSON values each of which parses without error at level 1,
`ParseObjectFromJSON` on an input that is the single-key object `{k: [c1..cn]}`
returns, without error, the node with `Name = k`, `Level = 0`, no arguments and the
`n` children obtained, in source order, by parsing the text of each `ci` at level 1;
every child has `Level = 1`. -/
theorem C1_name_with_children (g : Globals) (ord : MapOrder) (b : Bytes) (k : String)
    (t : Bytes) (cs : List (Bytes × JValue))
    (hm : 1 ≤ g.maxDepthLimit) (hk : k ∈ g.validObjectNames)
    (hb : scan b = some (JValue.object [(k, t, JValue.array cs)]))
    (hcs : ∀ c ∈ cs, (parseObject g (Object.new 1) (unmarshal ord c.1)).2 = none) :
    ParseObjectFromJSON g ord b =
        Run.ret (some { Name := k, Level := 0,
                        Children := cs.map (fun c =>
                          (parseObject g (Object.new 1) (unmarshal ord c.1)).1),
                        Arguments := "" }, none) ∧
      ∀ c ∈ cs, (parseObject g (Object.new 1) (unmarshal ord c.1)).1.Level = 1 := by
  have ht : scan t = some (JValue.array cs) :=
    (scan_childTexts ord b _ hb (t, JValue.array cs) (by simp [childTexts])).2.1
  have hchild : ∀ c ∈ cs, unmarshal ord c.1 = decode ord c.2 := fun c hc =>
    (scan_childTexts ord t _ ht c hc).2.2
  have hmap : cs.map (fun c => (parseObject g (Object.new 1) (unmarshal ord c.1)).1) =
      cs.map (fun c => (parseObject g (Object.new 1) (decode ord c.2)).1) :=
    List.map_congr_left (fun c hc => by rw [hchild c hc])
  have h := parseObject_name_with_children g ord b k t cs hm hk hb
    (fun c hc => by rw [← hchild c hc]; exact hcs c hc)
  rw [hmap]
  exact ⟨h.1, fun c hc => by rw [hchild c hc]; exact h.2 c hc⟩

/-- C1 at the input of the test `rule list format`. -/
theorem C1_name_with_children_witness :
    (1 : Int) ≤ testGlobals.maxDepthLimit ∧ "and" ∈ testGlobals.validObjectNames ∧
      ParseObjectFromJSON testGlobals MapOrder.source listInput =
        Run.ret (some { Name := "and", Level := 0,
                        Children := [{ Name := "user", Level := 1, Children := [], Arguments := "" },
                                     { Name := "service", Level := 1, Children := [], Arguments := "" }],
                        Arguments := "" }, none) :=
  ⟨by decide, by decide,
    (C1_name_with_children testGlobals MapOrder.source listInput "and"
      "[\"user\",\"service\"]".toList
      [("\"user\"".toList, JValue.string "user"), ("\"service\"".toList, JValue.string "service")]
      (by decide) (by decide) (by rfl)
      (by
        intro c hc
        simp only [List.mem_cons, List.mem_singleton, List.not_mem_nil, or_false] at hc
        rcases hc with rfl | rfl <;> rfl)).1⟩

/-- C2: for every registry, every maximum depth at least 0, every registered name `k`
and every JSON object `v`, `ParseObjectFromJSON` on an input that is the single-key
object `{k: v}` returns, without error, the node with `Name = k`, `Level = 0`, no
children and, as `Arguments`, the text `t` of `v`, which is a part of the input
exactly as it stands there and a valid input for `v`; nothing inside `v` is parsed or
looked up. -/
theorem C2_name_with_arguments (g : Globals) (ord : MapOrder) (b : Bytes) (k : String)
    (t : Bytes) (members : List (String × Bytes × JValue))
    (hm : 0 ≤ g.maxDepthLimit) (hk : k ∈ g.validObjectNames)
    (hb : scan b = some (JValue.object [(k, t, JValue.object members)])) :
    ParseObjectFromJSON g ord b =
        Run.ret (some { Name := k, Level := 0, Children := [], Arguments := String.mk t },
          none) ∧
      Within t b ∧ scan t = some (JValue.object members) := by
  have htext := scan_childTexts ord b _ hb (t, JValue.object members) (by simp [childTexts])
  refine ⟨?_, htext.1, htext.2.1⟩
  have hvalid : isObjectValid b = Run.ret none :=
    isObjectValid_of_scan b _ hb (by simp) (by simp) (by simp)
  have hlevel : ¬ (Object.new 0).Level > g.maxDepthLimit := by
    simp only [Object.new]
    omega
  have hlist : (decode ord (JValue.object [(k, t, JValue.object members)])).asListMap =
      Except.error (JsonErr.unmarshalTypeError "object" "[]json.RawMessage") := by
    rw [decode, RawMessage.asListMap]
    simp only [decodeSlices]
  unfold ParseObjectFromJSON
  rw [hvalid, unmarshal_of_scan ord b _ hb,
    parseObject_not_string g (Object.new 0) _ _ hlevel (decode_object_asString ord _)]
  unfold parseObjectWithChildren
  rw [hlist, parseObjectWithChildrenOf]
  simp only [errorsIs]
  unfold parseObjectWithArguments
  rw [decode_object_asRawMap]
  simp only [rangeObjectObject_single g _ k t hk, Bool.false_eq_true, if_false]
  rfl

/-- C2 at the input of the test `rule object format`. -/
theorem C2_name_with_arguments_witness :
    (0 : Int) ≤ testGlobals.maxDepthLimit ∧ "location" ∈ testGlobals.validObjectNames ∧
      ParseObjectFromJSON testGlobals MapOrder.source argumentsInput =
        Run.ret (some { Name := "location", Level := 0, Children := [],
                        Arguments := "\x7b\"region\":\"uk\"\x7d" }, none) :=
  ⟨by decide, by decide,
    (C2_name_with_arguments testGlobals MapOrder.source argumentsInput "location"
      "\x7b\"region\":\"uk\"\x7d".toList [("region", "\"uk\"".toList, JValue.string "uk")]
      (by decide) (by decide) (by rfl)).1⟩

/-- C3: for every registry, every maximum depth at least 0 and every non-empty
registered name `x`, `ParseObjectFromJSON` on an input that is the JSON string `x`
returns the node with `Name = x`, `Level = 0`, no children and no arguments, and no
error. -/
theorem C3_bare_string (g : Globals) (ord : MapOrder) (b : Bytes) (x : String)
    (hm : 0 ≤ g.maxDepthLimit) (hx : x ≠ "") (hreg : x ∈ g.validObjectNames)
    (hb : scan b = some (JValue.string x)) :
    ParseObjectFromJSON g ord b =
      Run.ret (some { Name := x, Level := 0, Children := [], Arguments := "" }, none) := by
  have hvalid : isObjectValid b = Run.ret none :=
    isObjectValid_of_scan b _ hb (by simp) (by simpa using hx) (by simp)
  have hlevel : ¬ (Object.new 0).Level > g.maxDepthLimit := by
    simp only [Object.new]
    omega
  unfold ParseObjectFromJSON
  rw [hvalid, unmarshal_of_scan ord b _ hb,
    parseObject_string_ok g (Object.new 0) _ x hlevel (by rw [decode, RawMessage.asString]) hreg]
  rfl

/-- C3 at the input of the test `rule string format`. -/
theorem C3_bare_string_witness :
    (0 : Int) ≤ testGlobals.maxDepthLimit ∧ "user" ≠ "" ∧
      "user" ∈ testGlobals.validObjectNames ∧
      ParseObjectFromJSON testGlobals MapOrder.source "\"user\"".toList =
        Run.ret (some { Name := "user", Level := 0, Children := [], Arguments := "" }, none) :=
  ⟨by decide, by decide, by decide,
    C3_bare_string testGlobals MapOrder.source "\"user\"".toList "user"
      (by decide) (by decide) (by decide) (by rfl)⟩

/-- C4: a name that is not an entry of the registry yields `ErrObjectNotFound` in
whichever shape it is met.  At every level not above the maximum depth, parsing an
input that is a non-empty JSON string `name`, or a single-key object with key `name`
and any JSON value under it, fails with the error of kind `ErrObjectNotFound` whose
message starts with `name` in single quotes; the node is handed back as it was, so
nothing under the key was parsed.  At the root `ParseObjectFromJSON` then returns no
node and this error. -/
theorem C4_unknown_name (g : Globals) (ord : MapOrder) (parent : Object) (b : Bytes)
    (v : JValue) (name : String)
    (hlevel : parent.Level ≤ g.maxDepthLimit) (hname : name ∉ g.validObjectNames)
    (hb : scan b = some v)
    (hv : (v = JValue.string name ∧ name ≠ "") ∨ ∃ t w, v = JValue.object [(name, t, w)]) :
    parseObject g parent (unmarshal ord b) =
        (parent, some (Err.object (ObjectErr.notFound name))) ∧
      errorsIs (Err.object (ObjectErr.notFound name)) Sentinel.ErrObjectNotFound = true ∧
      (ObjectErr.notFound name).Error = "'" ++ name ++ "' parameter not found" ∧
      (0 ≤ g.maxDepthLimit →
        ParseObjectFromJSON g ord b =
          Run.ret (none, some (Err.object (ObjectErr.notFound name)))) := by
  have hparse : ∀ p : Object, p.Level ≤ g.maxDepthLimit →
      parseObject g p (unmarshal ord b) =
        (p, some (Err.object (ObjectErr.notFound name))) := by
    intro p hp
    rw [unmarshal_of_scan ord b v hb]
    rcases hv with ⟨rfl, _⟩ | ⟨t, w, rfl⟩
    · exact parseObject_string_not_found g p _ name (by omega)
        (by rw [decode, RawMessage.asString]) hname
    · exact parseObject_unknown_key g ord p name t w hp hname
  refine ⟨hparse parent hlevel, by rfl, by rfl, ?_⟩
  intro hm
  have hvalid : isObjectValid b = Run.ret none := by
    rcases hv with ⟨rfl, hne⟩ | ⟨t, w, rfl⟩
    · exact isObjectValid_of_scan b _ hb (by simp) (by simpa using hne) (by simp)
    · exact isObjectValid_of_scan b _ hb (by simp) (by simp) (by simp)
  unfold ParseObjectFromJSON
  rw [hvalid, hparse (Object.new 0) hm]

/-- C4 at the input of the test `error rule not found`. -/
theorem C4_unknown_name_witness :
    "invalid" ∉ testGlobals.validObjectNames ∧
      ParseObjectFromJSON testGlobals MapOrder.source "\"invalid\"".toList =
        Run.ret (none, some (Err.object (ObjectErr.notFound "invalid"))) ∧
      (ObjectErr.notFound "invalid").Error = "'invalid' parameter not found" :=
  ⟨by decide,
    (C4_unknown_name testGlobals MapOrder.source (Object.new 0) "\"invalid\"".toList
      (JValue.string "invalid") "invalid" (by decide) (by decide) (by rfl)
      (Or.inl ⟨rfl, by decide⟩)).2.2.2 (by decide),
    by rfl⟩

/-- C5, as amended: for every registry and every maximum depth `m` at least 0, let the
input be `chain(n)` (a registered string for `n = 0`, the single-key object
`{k: [chain(n-1)]}` with `k` registered otherwise), other than the text `""`.
Then `ParseObjectFromJSON` returns a node if and only if `n ≤ m`, and for `n > m` it
returns no node and exactly `ErrMaxDepthLimitExceeded`, which every enclosing level
hands on as it is. -/
theorem C5_depth_boundary (g : Globals) (ord : MapOrder) (b : Bytes) (v : JValue) (n : Nat)
    (hb : scan b = some v)
    (hchain : isChain g.validObjectNames n v = true) (hroot : b ≠ ['"', '"']) :
    ((∃ obj, ParseObjectFromJSON g ord b = Run.ret (some obj, none)) ↔
        (n : Int) ≤ g.maxDepthLimit) ∧
      ((n : Int) > g.maxDepthLimit →
        ParseObjectFromJSON g ord b =
          Run.ret (none, some (Err.object ObjectErr.maxDepthLimitExceeded))) := by
  have hvalid := isChain_valid _ n b v hb hchain hroot
  have hparse := parseObject_chain g ord n v (Object.new 0) hchain
  have hzero : (Object.new 0).Level = 0 := rfl
  rw [hzero] at hparse
  have hfail : (n : Int) > g.maxDepthLimit →
      ParseObjectFromJSON g ord b =
        Run.ret (none, some (Err.object ObjectErr.maxDepthLimitExceeded)) := by
    intro h
    have he := hparse.2 (by omega)
    unfold ParseObjectFromJSON
    rw [hvalid, unmarshal_of_scan ord b _ hb]
    rcases hr : parseObject g (Object.new 0) (decode ord v) with ⟨obj, _ | e⟩
    · rw [hr] at he
      cases he
    · rw [hr] at he
      simp only [Option.some.injEq] at he
      subst he
      rfl
  refine ⟨⟨?_, ?_⟩, hfail⟩
  · rintro ⟨obj, hobj⟩
    by_contra hn
    rw [hfail (by omega)] at hobj
    cases hobj
  · intro h
    have he := hparse.1 (by omega)
    unfold ParseObjectFromJSON
    rw [hvalid, unmarshal_of_scan ord b _ hb]
    rcases hr : parseObject g (Object.new 0) (decode ord v) with ⟨obj, _ | e⟩
    · exact ⟨obj, rfl⟩
    · rw [hr] at he
      cases he

/-- C5 as stated fails at a registry that holds the empty name: the input `""` is
`chain(0)` and `0 ≤ 2`, yet `ParseObjectFromJSON` returns no node but the error of
kind `ErrObjectUndefined`. -/
theorem C5_depth_boundary_counterexample :
    scan ['"', '"'] = some (JValue.string "") ∧
      isChain emptyNameGlobals.validObjectNames 0 (JValue.string "") = true ∧
      (0 : Int) ≤ emptyNameGlobals.maxDepthLimit ∧
      ParseObjectFromJSON emptyNameGlobals MapOrder.source ['"', '"'] =
        Run.ret (none, some (Err.object ObjectErr.undefinedEmptyString)) ∧
      ¬ ∃ obj, ParseObjectFromJSON emptyNameGlobals MapOrder.source ['"', '"'] =
        Run.ret (some obj, none) := by
  refine ⟨by rfl, by rfl, by decide, by rfl, ?_⟩
  rintro ⟨obj, h⟩
  have h1 : ParseObjectFromJSON emptyNameGlobals MapOrder.source ['"', '"'] =
      Run.ret (none, some (Err.object ObjectErr.undefinedEmptyString)) := by rfl
  rw [h1] at h
  cases h

/-- C5 with maximum depth 2: the nesting `and > or > and > or`, whose deepest node is
at level 3, fails with `ErrMaxDepthLimitExceeded`, and the nesting `and > or > and`,
whose deepest node is at level 2, returns a node. -/
theorem C5_depth_boundary_witness :
    ParseObjectFromJSON testGlobals MapOrder.source chain3 =
        Run.ret (none, some (Err.object ObjectErr.maxDepthLimitExceeded)) ∧
      ∃ obj, ParseObjectFromJSON testGlobals MapOrder.source chain2 = Run.ret (some obj, none) :=
  ⟨(C5_depth_boundary testGlobals MapOrder.source chain3 ((scan chain3).getD JValue.null) 3
      (by rfl) (by rfl) (by decide)).2 (by decide),
   (C5_depth_boundary testGlobals MapOrder.source chain2 ((scan chain2).getD JValue.null) 2
      (by rfl) (by rfl) (by decide)).1.2 (by decide)⟩

/-- C6: whatever follows it, an input whose first character is `[` makes
`ParseObjectFromJSON` return no node and an error of kind `ErrObjectNotAcceptable`,
for every registry and every maximum depth (no depth check and no registry lookup
is reached). -/
theorem C6_root_array_rejected (g : Globals) (ord : MapOrder) (rest : Bytes) :
    ParseObjectFromJSON g ord ('[' :: rest) =
        Run.ret (none, some (Err.object (ObjectErr.notAcceptable ('[' :: rest)))) ∧
      errorsIs (Err.object (ObjectErr.notAcceptable ('[' :: rest)))
        Sentinel.ErrObjectNotAcceptable = true := by
  refine ⟨?_, by rfl⟩
  have h1 : '[' :: rest ≠ ['"', '"'] := by simp
  have h2 : '[' :: rest ≠ ['n', 'u', 'l', 'l'] := by simp
  unfold ParseObjectFromJSON isObjectValid
  rw [if_neg h1, if_neg h2]
  simp

/-- C7: for every registry (one that holds the empty name included) and every maximum
depth, `ParseObjectFromJSON` on the input `null` and on the input `""` returns no
node and an error of kind `ErrObjectUndefined`. -/
theorem C7_null_and_empty_rejected (g : Globals) (ord : MapOrder) :
    ParseObjectFromJSON g ord ['n', 'u', 'l', 'l'] =
        Run.ret (none, some (Err.object ObjectErr.undefinedNull)) ∧
      ParseObjectFromJSON g ord ['"', '"'] =
        Run.ret (none, some (Err.object ObjectErr.undefinedEmptyString)) ∧
      errorsIs (Err.object ObjectErr.undefinedNull) Sentinel.ErrObjectUndefined = true ∧
      errorsIs (Err.object ObjectErr.undefinedEmptyString) Sentinel.ErrObjectUndefined = true := by
  refine ⟨?_, ?_, by rfl, by rfl⟩
  · unfold ParseObjectFromJSON isObjectValid
    simp
  · unfold ParseObjectFromJSON isObjectValid
    simp

/-- C8 fails on the code at `{"and":["user",5]}`: the child `5` fails at level 1 with
the library's type error, which is not of the `errObject` family, so `parseObject`
goes on to `parseObjectWithArguments` and returns, without error, a node that keeps
the child parsed before the failure and takes the whole list as its arguments. -/
theorem C8_child_failure_falls_through :
    (parseObject testGlobals (Object.new 1) (unmarshal MapOrder.source ['5'])).2 =
        some (Err.json
          (JsonErr.unmarshalTypeError "number" "map[string]json.RawMessage")) ∧
      errorsIs (Err.json (JsonErr.unmarshalTypeError "number" "map[string]json.RawMessage"))
        Sentinel.errObject = false ∧
      ParseObjectFromJSON testGlobals MapOrder.source numberChildInput =
        Run.ret (some { Name := "and", Level := 0,
                        Children := [{ Name := "user", Level := 1, Children := [], Arguments := "" }],
                        Arguments := "[\"user\",5]" }, none) :=
  ⟨by rfl, by rfl, by rfl⟩

/-- C9 fails on the code at `{"or":["user",{"and":["service",true]}]}`: the node `and`
of the returned tree has both a child and arguments. -/
theorem C9_children_and_arguments :
    ParseObjectFromJSON testGlobals MapOrder.source nestedBoolInput =
        Run.ret (some { Name := "or", Level := 0,
                        Children :=
                          [{ Name := "user", Level := 1, Children := [], Arguments := "" },
                           { Name := "and", Level := 1,
                             Children := [{ Name := "service", Level := 2, Children := [],
                                            Arguments := "" }],
                             Arguments := "[\"service\",true]" }],
                        Arguments := "" }, none) ∧
      ∃ obj, ParseObjectFromJSON testGlobals MapOrder.source nestedBoolInput =
          Run.ret (some obj, none) ∧ obj.exclusive = false :=
  ⟨by rfl, ⟨_, by rfl, by rfl⟩⟩

/-- C10 fails on the code at `{}`: `ParseObjectFromJSON` returns, without error, a node
whose `Name` is the empty string, which is not an entry of the registry. -/
theorem C10_empty_object_unnamed :
    ParseObjectFromJSON testGlobals MapOrder.source emptyObjectInput =
        Run.ret (some { Name := "", Level := 0, Children := [], Arguments := "" }, none) ∧
      "" ∉ testGlobals.validObjectNames ∧
      ∃ obj, ParseObjectFromJSON testGlobals MapOrder.source emptyObjectInput =
          Run.ret (some obj, none) ∧ obj.namesIn testGlobals.validObjectNames = false :=
  ⟨by rfl, by decide, ⟨_, by rfl, by rfl⟩⟩

/-! ## Induction over raw messages -/

/-- A property holds of every raw message if it holds of a message whenever it holds
of all the children that the message hands to recursive calls. -/
theorem RawMessage.induction (P : RawMessage → Prop)
    (h : ∀ s lm rm, (∀ m, lm = Except.ok m → ∀ e ∈ m, ∀ c ∈ e.2, P c) →
      P (RawMessage.mk s lm rm)) :
    ∀ b, P b := by
  intro b
  refine @RawMessage.rec P
    (fun lm => ∀ m, lm = Except.ok m → ∀ e ∈ m, ∀ c ∈ e.2, P c)
    (fun m => ∀ e ∈ m, ∀ c ∈ e.2, P c)
    (fun e => ∀ c ∈ e.2, P c)
    (fun cs => ∀ c ∈ cs, P c)
    ?_ ?_ ?_ ?_ ?_ ?_ ?_ ?_ b
  · intro s lm rm ih
    exact h s lm rm ih
  · intro a m hm
    cases hm
  · intro a ih m hm
    cases hm
    exact ih
  · intro e he
    cases he
  · intro head tail ihh iht e he
    rcases List.mem_cons.mp he with rfl | he1
    · exact ihh
    · exact iht e he1
  · intro fst snd ih
    exact ih
  · intro c hc
    cases hc
  · intro head tail ihh iht c hc
    rcases List.mem_cons.mp hc with rfl | hc1
    · exact ihh
    · exact iht c hc1

/-! ## What a call leaves of the node it fills -/

theorem parseObjectFromString_children (g : Globals) (parent : Object) (b : RawMessage) :
    (parseObjectFromString g parent b).1.Children = parent.Children := by
  unfold parseObjectFromString
  split
  · rfl
  · split <;> rfl

theorem rangeObjectObject_children (g : Globals) (objectObject : List (String × Bytes)) :
    ∀ parent : Object, (rangeObjectObject g parent objectObject).1.Children = parent.Children := by
  induction objectObject with
  | nil => intro parent; rfl
  | cons entry rest ih =>
    intro parent
    obtain ⟨objectName, arguments⟩ := entry
    rw [rangeObjectObject]
    rcases isSupported g objectName with _ | e
    · simp only
      rw [ih]
    · rfl

theorem parseObjectWithArguments_children (g : Globals) (parent : Object) (b : RawMessage) :
    (parseObjectWithArguments g parent b).1.Children = parent.Children := by
  unfold parseObjectWithArguments
  rcases b.asRawMap with e | m
  · rfl
  · exact rangeObjectObject_children g m parent

/-! ## Levels of the nodes of a tree -/

theorem levelled_congr (p q : Object) (hl : p.Level = q.Level) (hc : p.Children = q.Children) :
    p.levelled = q.levelled := by
  cases p
  cases q
  simp only at hl hc
  subst hl
  subst hc
  simp only [Object.levelled]

theorem levelled_new (level : Int) : (Object.new level).levelled = true := by
  simp [Object.new, Object.levelled, levelledAll]

theorem levelledAll_append (level : Int) (xs : List Object) (c : Object) :
    levelledAll level (xs ++ [c]) =
      (levelledAll level xs && (decide (c.Level = level) && c.levelled)) := by
  induction xs with
  | nil => simp [levelledAll]
  | cons x xs ih =>
    rw [List.cons_append, levelledAll, levelledAll, ih]
    simp only [Bool.and_assoc]

theorem levelled_add_child (parent child : Object) (hp : parent.levelled = true)
    (hl : child.Level = parent.Level + 1) (hc : child.levelled = true) :
    ({ parent with Children := parent.Children ++ [child] } : Object).levelled = true := by
  cases parent
  simp only [Object.levelled] at hp ⊢
  simp only at hl
  rw [levelledAll_append, hp, hc]
  simp [hl]

theorem rangeChildren_levelled (g : Globals) (children : List RawMessage)
    (hP : ∀ c ∈ children, ∀ parent : Object, parent.levelled = true →
      (parseObject g parent c).1.levelled = true) :
    ∀ parent : Object, parent.levelled = true →
      (rangeChildren g parent children).1.levelled = true := by
  induction children with
  | nil =>
    intro parent hp
    rw [rangeChildren]
    exact hp
  | cons c rest ih =>
    intro parent hp
    rw [rangeChildren]
    have hlev := parseObject_level g (Object.new (parent.Level + 1)) c
    have hc := hP c (List.mem_cons_self _ _) (Object.new (parent.Level + 1)) (levelled_new _)
    rcases hr : parseObject g (Object.new (parent.Level + 1)) c with ⟨childObject, _ | e⟩
    · rw [hr] at hlev hc
      exact ih (fun c1 hc1 => hP c1 (List.mem_cons_of_mem _ hc1)) _
        (levelled_add_child parent childObject hp hlev hc)
    · exact hp

theorem rangeListObject_levelled (g : Globals) (listObject : List (String × List RawMessage))
    (hP : ∀ e ∈ listObject, ∀ c ∈ e.2, ∀ parent : Object, parent.levelled = true →
      (parseObject g parent c).1.levelled = true) :
    ∀ parent : Object, parent.levelled = true →
      (rangeListObject g parent listObject).1.levelled = true := by
  induction listObject with
  | nil =>
    intro parent hp
    rw [rangeListObject]
    exact hp
  | cons entry rest ih =>
    intro parent hp
    obtain ⟨objectName, children⟩ := entry
    rw [rangeListObject]
    rcases isSupported g objectName with _ | e
    · have hnamed : ({ parent with Name := objectName } : Object).levelled = true :=
        (levelled_congr { parent with Name := objectName } parent rfl rfl).trans hp
      have hkids := rangeChildren_levelled g children
        (fun c hc => hP (objectName, children) (List.mem_cons_self _ _) c hc) _ hnamed
      rcases hr : rangeChildren g { parent with Name := objectName } children
        with ⟨p1, _ | e⟩
      · rw [hr] at hkids
        exact ih (fun e he => hP e (List.mem_cons_of_mem _ he)) p1 hkids
      · rw [hr] at hkids
        exact hkids
    · exact hp

/-- Every call of `parseObject` on a levelled node leaves a levelled node, whether it
fails or not. -/
theorem parseObject_levelled (g : Globals) :
    ∀ (b : RawMessage) (parent : Object), parent.levelled = true →
      (parseObject g parent b).1.levelled = true := by
  intro b
  induction b using RawMessage.induction with
  | h s lm rm ih =>
    intro parent hp
    rw [parseObject]
    split
    · exact hp
    · have h1 : (parseObjectFromString g parent (RawMessage.mk s lm rm)).1.levelled = true :=
        (levelled_congr _ parent (parseObjectFromString_level g parent _)
          (parseObjectFromString_children g parent _)).trans hp
      rcases hs : parseObjectFromString g parent (RawMessage.mk s lm rm) with ⟨p1, _ | e1⟩
      · rw [hs] at h1
        exact h1
      · rw [hs] at h1
        simp only
        split
        · exact h1
        · have h2 : (parseObjectWithChildrenOf g p1 lm).1.levelled = true := by
            cases lm with
            | error e =>
              rw [parseObjectWithChildrenOf]
              exact h1
            | ok m =>
              rw [parseObjectWithChildrenOf]
              exact rangeListObject_levelled g m (ih m rfl) p1 h1
          rcases hc : parseObjectWithChildrenOf g p1 lm with ⟨p2, _ | e2⟩
          · rw [hc] at h2
            exact h2
          · rw [hc] at h2
            simp only
            split
            · exact h2
            · exact (levelled_congr _ p2 (parseObjectWithArguments_level g p2 _)
                (parseObjectWithArguments_children g p2 _)).trans h2

/-! ## No node above the maximum depth -/

theorem within_eq (limit : Int) (obj : Object) :
    obj.within limit = (decide (obj.Level ≤ limit) && withinAll limit obj.Children) := by
  cases obj
  rfl

theorem withinAll_append (limit : Int) (xs : List Object) (c : Object) :
    withinAll limit (xs ++ [c]) = (withinAll limit xs && c.within limit) := by
  induction xs with
  | nil => simp [withinAll]
  | cons x xs ih =>
    rw [List.cons_append, withinAll, withinAll, ih]
    simp only [Bool.and_assoc]

/-- A call of `parseObject` that returns no error was made on a node whose level is
not above the maximum depth. -/
theorem parseObject_ok_level (g : Globals) (parent : Object) (b : RawMessage)
    (h : (parseObject g parent b).2 = none) : parent.Level ≤ g.maxDepthLimit := by
  by_contra hl
  rw [parseObject_exceeded g parent b (by omega)] at h
  cases h

theorem rangeChildren_within (g : Globals) (children : List RawMessage)
    (hP : ∀ c ∈ children, ∀ parent : Object, withinAll g.maxDepthLimit parent.Children = true →
      withinAll g.maxDepthLimit (parseObject g parent c).1.Children = true) :
    ∀ parent : Object, withinAll g.maxDepthLimit parent.Children = true →
      withinAll g.maxDepthLimit (rangeChildren g parent children).1.Children = true := by
  induction children with
  | nil =>
    intro parent hp
    rw [rangeChildren]
    exact hp
  | cons c rest ih =>
    intro parent hp
    rw [rangeChildren]
    have hlev := parseObject_level g (Object.new (parent.Level + 1)) c
    have hc := hP c (List.mem_cons_self _ _) (Object.new (parent.Level + 1)) (by rfl)
    have hok := parseObject_ok_level g (Object.new (parent.Level + 1)) c
    rcases hr : parseObject g (Object.new (parent.Level + 1)) c with ⟨childObject, _ | e⟩
    · rw [hr] at hlev hc hok
      refine ih (fun c1 hc1 => hP c1 (List.mem_cons_of_mem _ hc1)) _ ?_
      simp only
      rw [withinAll_append, hp, within_eq, hc]
      have hchild : childObject.Level ≤ g.maxDepthLimit := by
        simp only at hlev
        rw [hlev]
        exact hok rfl
      simp [hchild]
    · exact hp

theorem rangeListObject_within (g : Globals) (listObject : List (String × List RawMessage))
    (hP : ∀ e ∈ listObject, ∀ c ∈ e.2, ∀ parent : Object,
      withinAll g.maxDepthLimit parent.Children = true →
      withinAll g.maxDepthLimit (parseObject g parent c).1.Children = true) :
    ∀ parent : Object, withinAll g.maxDepthLimit parent.Children = true →
      withinAll g.maxDepthLimit (rangeListObject g parent listObject).1.Children = true := by
  induction listObject with
  | nil =>
    intro parent hp
    rw [rangeListObject]
    exact hp
  | cons entry rest ih =>
    intro parent hp
    obtain ⟨objectName, children⟩ := entry
    rw [rangeListObject]
    rcases isSupported g objectName with _ | e
    · have hkids := rangeChildren_within g children
        (fun c hc => hP (objectName, children) (List.mem_cons_self _ _) c hc)
        { parent with Name := objectName } hp
      rcases hr : rangeChildren g { parent with Name := objectName } children
        with ⟨p1, _ | e⟩
      · rw [hr] at hkids
        exact ih (fun e he => hP e (List.mem_cons_of_mem _ he)) p1 hkids
      · rw [hr] at hkids
        exact hkids
    · exact hp

/-- Every call of `parseObject` on a node whose children hold no node above the
maximum depth leaves such a node, whether it fails or not. -/
theorem parseObject_within (g : Globals) :
    ∀ (b : RawMessage) (parent : Object), withinAll g.maxDepthLimit parent.Children = true →
      withinAll g.maxDepthLimit (parseObject g parent b).1.Children = true := by
  intro b
  induction b using RawMessage.induction with
  | h s lm rm ih =>
    intro parent hp
    rw [parseObject]
    split
    · exact hp
    · have h1 : withinAll g.maxDepthLimit
          (parseObjectFromString g parent (RawMessage.mk s lm rm)).1.Children = true := by
        rw [parseObjectFromString_children]
        exact hp
      rcases hs : parseObjectFromString g parent (RawMessage.mk s lm rm) with ⟨p1, _ | e1⟩
      · rw [hs] at h1
        exact h1
      · rw [hs] at h1
        simp only
        split
        · exact h1
        · have h2 : withinAll g.maxDepthLimit
              (parseObjectWithChildrenOf g p1 lm).1.Children = true := by
            cases lm with
            | error e =>
              rw [parseObjectWithChildrenOf]
              exact h1
            | ok m =>
              rw [parseObjectWithChildrenOf]
              exact rangeListObject_within g m (ih m rfl) p1 h1
          rcases hc : parseObjectWithChildrenOf g p1 lm with ⟨p2, _ | e2⟩
          · rw [hc] at h2
            exact h2
          · rw [hc] at h2
            simp only
            split
            · exact h2
            · rw [parseObjectWithArguments_children]
              exact h2

/-- What `ParseObjectFromJSON` returns as a node is what `parseObject` made, without
error, of the zero node. -/
theorem ParseObjectFromJSON_node (g : Globals) (ord : MapOrder) (b : Bytes) (obj : Object)
    (e : Option Err) (h : ParseObjectFromJSON g ord b = Run.ret (some obj, e)) :
    e = none ∧ parseObject g (Object.new 0) (unmarshal ord b) = (obj, none) := by
  unfold ParseObjectFromJSON at h
  split at h
  · cases h
  · cases h
  · split at h
    · cases h
    · rename_i obj1 hp
      simp only [Run.ret.injEq, Prod.mk.injEq, Option.some.injEq] at h
      obtain ⟨rfl, rfl⟩ := h
      exact ⟨rfl, hp⟩

/-! ## The first child that fails -/

/-- The children loop stops at the first child whose parse fails, with its error. -/
theorem rangeChildren_first_error (g : Globals) (before : List RawMessage) (c : RawMessage)
    (after : List RawMessage) (e : Err) :
    ∀ parent : Object,
      (∀ x ∈ before, (parseObject g (Object.new (parent.Level + 1)) x).2 = none) →
      (parseObject g (Object.new (parent.Level + 1)) c).2 = some e →
      (rangeChildren g parent (before ++ c :: after)).2 = some e := by
  induction before with
  | nil =>
    intro parent _ hc
    rw [List.nil_append, rangeChildren]
    rcases hr : parseObject g (Object.new (parent.Level + 1)) c with ⟨childObject, _ | e1⟩
    · rw [hr] at hc
      cases hc
    · rw [hr] at hc
      exact hc
  | cons x rest ih =>
    intro parent hok hc
    rw [List.cons_append, rangeChildren]
    have hx := hok x (List.mem_cons_self _ _)
    rcases hr : parseObject g (Object.new (parent.Level + 1)) x with ⟨childObject, _ | e1⟩
    · exact ih { parent with Children := parent.Children ++ [childObject] }
        (fun y hy => hok y (List.mem_cons_of_mem _ hy)) hc
    · rw [hr] at hx
      cases hx

/-- One step of `parseObject` on a message that is not a string and decodes as a map
with the single registered key `k` and a list under it. -/
theorem parseObject_single_list (g : Globals) (parent : Object) (b : RawMessage)
    (e0 : JsonErr) (k : String) (children : List RawMessage)
    (hl : ¬ parent.Level > g.maxDepthLimit) (hs : b.asString = Except.error e0)
    (hm : b.asListMap = Except.ok [(k, children)]) (hk : k ∈ g.validObjectNames) :
    parseObject g parent b =
      match rangeChildren g { parent with Name := k } children with
      | (parent1, none) => (parent1, none)
      | (parent1, some err) =>
        if errorsIs err Sentinel.errObject then (parent1, some err)
        else parseObjectWithArguments g parent1 b := by
  rw [parseObject_not_string g parent b e0 hl hs]
  unfold parseObjectWithChildren
  rw [hm, parseObjectWithChildrenOf, rangeListObject, isSupported_of_mem g k hk]
  simp only
  rcases rangeChildren g { parent with Name := k } children with ⟨p1, _ | e⟩
  · simp only [rangeListObject]
  · simp only

/-- An error of the `errObject` family met at the first failing child of a single
registered key is the error of the whole call. -/
theorem parseObject_child_error (g : Globals) (parent : Object) (b : RawMessage)
    (e0 : JsonErr) (k : String) (before : List RawMessage) (c : RawMessage)
    (after : List RawMessage) (e : Err)
    (hl : ¬ parent.Level > g.maxDepthLimit) (hs : b.asString = Except.error e0)
    (hm : b.asListMap = Except.ok [(k, before ++ c :: after)]) (hk : k ∈ g.validObjectNames)
    (hok : ∀ x ∈ before, (parseObject g (Object.new (parent.Level + 1)) x).2 = none)
    (hc : (parseObject g (Object.new (parent.Level + 1)) c).2 = some e)
    (he : errorsIs e Sentinel.errObject = true) :
    (parseObject g parent b).2 = some e := by
  rw [parseObject_single_list g parent b e0 k _ hl hs hm hk]
  have h := rangeChildren_first_error g before c after e { parent with Name := k } hok hc
  rcases hr : rangeChildren g { parent with Name := k } (before ++ c :: after)
    with ⟨p1, _ | e1⟩
  · rw [hr] at h
    cases h
  · rw [hr] at h
    simp only [Option.some.injEq] at h
    subst h
    simp only [he, if_true]

/-! ## Claims C11 and C12 -/

/-- In a tree whose children are one level below their parent, every level is the
level of the root plus the distance from the root. -/
theorem levelled_atDepth (obj : Object) :
    obj.levelled = true → obj.atDepth obj.Level = true := by
  refine @Object.rec (fun o => o.levelled = true → o.atDepth o.Level = true)
    (fun l => ∀ d, levelledAll d l = true → atDepthAll d l = true) ?_ ?_ ?_ obj
  · intro name level children arguments ih h
    rw [Object.levelled] at h
    rw [Object.atDepth]
    simp [ih _ h]
  · intro d _
    rw [atDepthAll]
  · intro c cs ihc ihcs d h
    rw [levelledAll] at h
    simp only [Bool.and_eq_true, decide_eq_true_eq] at h
    rw [atDepthAll]
    have hc := ihc h.1.2
    rw [h.1.1] at hc
    simp [hc, ihcs d h.2]

/-- C11: for every input, registry and maximum depth, in every tree that
`ParseObjectFromJSON` returns the root has `Level` 0 and every child of every node has
the `Level` of its parent plus 1, so that the `Level` of a node is its distance from
the root. -/
theorem C11_levels (g : Globals) (ord : MapOrder) (b : Bytes) (obj : Object)
    (h : ParseObjectFromJSON g ord b = Run.ret (some obj, none)) :
    obj.Level = 0 ∧ obj.levelled = true ∧ obj.atDepth 0 = true := by
  obtain ⟨_, hp⟩ := ParseObjectFromJSON_node g ord b obj none h
  have hlevel := parseObject_level g (Object.new 0) (unmarshal ord b)
  have hlev := parseObject_levelled g (unmarshal ord b) (Object.new 0) (levelled_new 0)
  rw [hp] at hlevel hlev
  have hd := levelled_atDepth obj hlev
  rw [hlevel] at hd
  exact ⟨hlevel, hlev, hd⟩

/-- C11 at the input of the test `rule list format` and its tree. -/
theorem C11_levels_witness :
    ParseObjectFromJSON testGlobals MapOrder.source listInput = Run.ret (some listTree, none) ∧
      listTree.Level = 0 ∧ listTree.levelled = true ∧ listTree.atDepth 0 = true :=
  ⟨by rfl, C11_levels testGlobals MapOrder.source listInput listTree (by rfl)⟩

/-- C12: for every input, registry and configured maximum depth (any integer), no node
of a tree that `ParseObjectFromJSON` returns has a `Level` above the maximum depth.
A node above it is not dropped either: a call of `parseObject` on such a node fails
with `ErrMaxDepthLimitExceeded`, and when the first failing child under a single
registered key fails with this error, so does the call for the parent. -/
theorem C12_no_node_above_limit (g : Globals) (ord : MapOrder) (b : Bytes) (obj : Object)
    (h : ParseObjectFromJSON g ord b = Run.ret (some obj, none)) :
    obj.within g.maxDepthLimit = true ∧
      (∀ (node : Object) (c : RawMessage), node.Level > g.maxDepthLimit →
        parseObject g node c = (node, some (Err.object ObjectErr.maxDepthLimitExceeded))) ∧
      (∀ (parent : Object) (m : RawMessage) (e0 : JsonErr) (k : String)
          (before : List RawMessage) (c : RawMessage) (after : List RawMessage),
        ¬ parent.Level > g.maxDepthLimit → m.asString = Except.error e0 →
        m.asListMap = Except.ok [(k, before ++ c :: after)] → k ∈ g.validObjectNames →
        (∀ x ∈ before, (parseObject g (Object.new (parent.Level + 1)) x).2 = none) →
        (parseObject g (Object.new (parent.Level + 1)) c).2 =
          some (Err.object ObjectErr.maxDepthLimitExceeded) →
        (parseObject g parent m).2 = some (Err.object ObjectErr.maxDepthLimitExceeded)) := by
  obtain ⟨_, hp⟩ := ParseObjectFromJSON_node g ord b obj none h
  refine ⟨?_, fun node c hn => parseObject_exceeded g node c hn, ?_⟩
  · have hlevel := parseObject_level g (Object.new 0) (unmarshal ord b)
    have hok := parseObject_ok_level g (Object.new 0) (unmarshal ord b)
    have hin := parseObject_within g (unmarshal ord b) (Object.new 0) (by rfl)
    rw [hp] at hlevel hok hin
    rw [within_eq, hin]
    have hroot : obj.Level ≤ g.maxDepthLimit := by
      simp only at hlevel
      rw [hlevel]
      exact hok rfl
    simp [hroot]
  · intro parent m e0 k before c after hl hs hm hk hok hc
    exact parseObject_child_error g parent m e0 k before c after _ hl hs hm hk hok hc (by rfl)

/-- C12 at the input `chain2`, whose deepest node is at the maximum depth 2. -/
theorem C12_no_node_above_limit_witness :
    ParseObjectFromJSON testGlobals MapOrder.source chain2 = Run.ret (some chain2Tree, none) ∧
      chain2Tree.within testGlobals.maxDepthLimit = true :=
  ⟨by rfl, (C12_no_node_above_limit testGlobals MapOrder.source chain2 chain2Tree (by rfl)).1⟩

/-! ## The errors a parse can return -/

theorem rangeObjectObject_error (g : Globals) (objectObject : List (String × Bytes)) :
    ∀ (parent : Object) (e : Err), (rangeObjectObject g parent objectObject).2 = some e →
      errorsIs e Sentinel.errObject = true := by
  induction objectObject with
  | nil =>
    intro parent e h
    rw [rangeObjectObject] at h
    cases h
  | cons entry rest ih =>
    intro parent e h
    obtain ⟨objectName, arguments⟩ := entry
    rw [rangeObjectObject] at h
    rcases isSupported_cases g objectName with hs | hs
    · rw [hs] at h
      exact ih _ e h
    · rw [hs] at h
      simp only [Option.some.injEq] at h
      subst h
      rfl

/-- An error of `parseObject` is of the `errObject` family, or it is the library's
error for the last of the three decodings, none of which took the value. -/
theorem parseObject_error (g : Globals) (parent : Object) (b : RawMessage) (e : Err)
    (h : (parseObject g parent b).2 = some e) :
    errorsIs e Sentinel.errObject = true ∨
      ∃ je, e = Err.json je ∧ b.asRawMap = Except.error je ∧
        ∃ js, b.asString = Except.error js := by
  rw [parseObject_eq] at h
  split at h
  · simp only [Option.some.injEq] at h
    subst h
    exact Or.inl rfl
  · rcases hs : parseObjectFromString g parent b with ⟨p1, _ | e1⟩
    · rw [hs] at h
      cases h
    · rw [hs] at h
      simp only at h
      by_cases h1 : errorsIs e1 Sentinel.errObject = true
      · rw [if_pos h1] at h
        simp only [Option.some.injEq] at h
        subst h
        exact Or.inl h1
      · rw [if_neg h1] at h
        have hstr : ∃ js, b.asString = Except.error js := by
          unfold parseObjectFromString at hs
          rcases hb : b.asString with js | x
          · exact ⟨js, rfl⟩
          · rw [hb] at hs
            simp only at hs
            rcases isSupported_cases g x with hx | hx
            · rw [hx] at hs
              cases hs
            · rw [hx] at hs
              simp only [Prod.mk.injEq, Option.some.injEq] at hs
              obtain ⟨_, rfl⟩ := hs
              exact absurd rfl h1
        rcases hc : parseObjectWithChildren g p1 b with ⟨p2, _ | e2⟩
        · rw [hc] at h
          cases h
        · rw [hc] at h
          simp only at h
          by_cases h2 : errorsIs e2 Sentinel.errObject = true
          · rw [if_pos h2] at h
            simp only [Option.some.injEq] at h
            subst h
            exact Or.inl h2
          · rw [if_neg h2] at h
            unfold parseObjectWithArguments at h
            rcases hr : b.asRawMap with je | m
            · rw [hr] at h
              simp only [Option.some.injEq] at h
              subst h
              exact Or.inr ⟨je, rfl, rfl, hstr⟩
            · rw [hr] at h
              exact Or.inl (rangeObjectObject_error g m p2 e h)

theorem isObjectValid_error (b : Bytes) (e : Err) (h : isObjectValid b = Run.ret (some e)) :
    errorsIs e Sentinel.errObject = true := by
  unfold isObjectValid at h
  split at h
  · simp only [Run.ret.injEq, Option.some.injEq] at h
    subst h
    rfl
  · split at h
    · simp only [Run.ret.injEq, Option.some.injEq] at h
      subst h
      rfl
    · split at h
      · cases h
      · split at h
        · simp only [Run.ret.injEq, Option.some.injEq] at h
          subst h
          rfl
        · cases h

/-- The values that neither a `string` nor a `map[string]json.RawMessage` takes. -/
theorem decode_no_shape (ord : MapOrder) (v : JValue) (js je : JsonErr)
    (hs : (decode ord v).asString = Except.error js)
    (hr : (decode ord v).asRawMap = Except.error je) :
    (∃ x, v = JValue.bool x) ∨ v = JValue.number ∨ ∃ es, v = JValue.array es := by
  cases v with
  | null => rw [decode, RawMessage.asString] at hs; cases hs
  | bool x => exact Or.inl ⟨x, rfl⟩
  | number => exact Or.inr (Or.inl rfl)
  | string s => rw [decode, RawMessage.asString] at hs; cases hs
  | array es => exact Or.inr (Or.inr ⟨es, rfl⟩)
  | object ms => rw [decode, RawMessage.asRawMap] at hr; cases hr

theorem isObjectValid_cons (c : Char) (rest : Bytes) :
    ∃ e, isObjectValid (c :: rest) = Run.ret e := by
  unfold isObjectValid
  split
  · exact ⟨_, rfl⟩
  · split
    · exact ⟨_, rfl⟩
    · simp only
      split
      · exact ⟨_, rfl⟩
      · exact ⟨_, rfl⟩

/-! ## Claims C13 and C14 -/

/-- C13, as amended: every error that `ParseObjectFromJSON` returns comes without a
node and is either of the `errObject` family, or the library's error for the third
decoding, handed on as it is and not of that family; the latter happens only when the
input is not valid JSON or is a boolean, a number or an array. -/
theorem C13_error_kinds (g : Globals) (ord : MapOrder) (b : Bytes)
    (res : Option Object) (e : Err)
    (h : ParseObjectFromJSON g ord b = Run.ret (res, some e)) :
    res = none ∧
      (errorsIs e Sentinel.errObject = true ∨
        ∃ je, e = Err.json je ∧ errorsIs e Sentinel.errObject = false ∧
          (unmarshal ord b).asRawMap = Except.error je ∧
          (scan b = none ∨
            ∃ v, scan b = some v ∧
              ((∃ x, v = JValue.bool x) ∨ v = JValue.number ∨ ∃ es, v = JValue.array es))) := by
  unfold ParseObjectFromJSON at h
  split at h
  · cases h
  · rename_i err hv
    simp only [Run.ret.injEq, Prod.mk.injEq, Option.some.injEq] at h
    obtain ⟨rfl, rfl⟩ := h
    exact ⟨rfl, Or.inl (isObjectValid_error b _ hv)⟩
  · split at h
    · rename_i p err hp
      simp only [Run.ret.injEq, Prod.mk.injEq, Option.some.injEq] at h
      obtain ⟨rfl, rfl⟩ := h
      refine ⟨rfl, ?_⟩
      have hpe : (parseObject g (Object.new 0) (unmarshal ord b)).2 = some err := by rw [hp]
      rcases parseObject_error g _ _ err hpe with he | ⟨je, rfl, hr, js, hs⟩
      · exact Or.inl he
      · refine Or.inr ⟨je, rfl, rfl, hr, ?_⟩
        rcases hscan : scan b with _ | v
        · exact Or.inl rfl
        · refine Or.inr ⟨v, rfl, ?_⟩
          rw [unmarshal_of_scan ord b v hscan] at hs hr
          exact decode_no_shape ord v js je hs hr
    · cases h

/-- C13 as stated fails at the input `5`: it matches none of the three shapes, and
the error returned is the library's, for which `errors.Is(err, errObject)` is false. -/
theorem C13_error_kinds_counterexample :
    ParseObjectFromJSON testGlobals MapOrder.source ['5'] =
        Run.ret (none, some (Err.json
          (JsonErr.unmarshalTypeError "number" "map[string]json.RawMessage"))) ∧
      errorsIs (Err.json (JsonErr.unmarshalTypeError "number" "map[string]json.RawMessage"))
        Sentinel.errObject = false :=
  ⟨by rfl, by rfl⟩

/-- C13 at the input `5` and at the input of the test `error rule not found`. -/
theorem C13_error_kinds_witness :
    (errorsIs (Err.json (JsonErr.unmarshalTypeError "number" "map[string]json.RawMessage"))
          Sentinel.errObject = true ∨
        ∃ je, Err.json (JsonErr.unmarshalTypeError "number" "map[string]json.RawMessage") =
            Err.json je ∧
          errorsIs (Err.json (JsonErr.unmarshalTypeError "number" "map[string]json.RawMessage"))
            Sentinel.errObject = false ∧
          (unmarshal MapOrder.source ['5']).asRawMap = Except.error je ∧
          (scan ['5'] = none ∨
            ∃ v, scan ['5'] = some v ∧
              ((∃ x, v = JValue.bool x) ∨ v = JValue.number ∨
                ∃ es, v = JValue.array es))) :=
  (C13_error_kinds testGlobals MapOrder.source ['5'] none _ (by rfl)).2

/-- C14 fails on the code at the empty input: `isObjectValid` reads `b[0]` of an empty
slice, so `ParseObjectFromJSON` panics instead of returning a node or an error.  On
every other input it returns. -/
theorem C14_empty_input_panics (g : Globals) (ord : MapOrder) :
    isObjectValid [] = Run.panic ∧
      ParseObjectFromJSON g ord [] = Run.panic ∧
      ∀ (c : Char) (rest : Bytes), ∃ r, ParseObjectFromJSON g ord (c :: rest) = Run.ret r := by
  refine ⟨by rfl, by rfl, ?_⟩
  intro c rest
  obtain ⟨e, he⟩ := isObjectValid_cons c rest
  unfold ParseObjectFromJSON
  rw [he]
  cases e with
  | some err => exact ⟨_, rfl⟩
  | none =>
    simp only
    rcases parseObject g (Object.new 0) (unmarshal ord (c :: rest)) with ⟨obj, _ | err⟩
    · exact ⟨_, rfl⟩
    · exact ⟨_, rfl⟩

/-! ## The registry -/

theorem isSupportedIn_eq_none_iff (names : List String) (key : String) :
    isSupportedIn names key = none ↔ key ∈ names := by
  constructor
  · intro h
    by_contra hn
    rw [isSupportedIn_of_not_mem names key hn] at h
    cases h
  · exact isSupportedIn_of_mem names key

theorem isSupported_eq_none_iff (g : Globals) (key : String) :
    isSupported g key = none ↔ key ∈ g.validObjectNames :=
  isSupportedIn_eq_none_iff _ _

theorem AddObjectName_names (g : Globals) (names : List String) :
    (AddObjectName g names).validObjectNames = g.validObjectNames ++ names := by
  unfold AddObjectName
  cases names with
  | nil => simp
  | cons n ns => simp

theorem removeLoop_eq_filter (lib : Strings) (name : String) (names : List String) :
    ∀ result : List String,
      removeLoop lib name result names =
        result ++ names.filter (fun objectName => !lib.EqualFold objectName name) := by
  induction names with
  | nil =>
    intro result
    simp [removeLoop]
  | cons objectName rest ih =>
    intro result
    rw [removeLoop]
    by_cases h : lib.EqualFold objectName name = true
    · simp [h, ih]
    · have h1 : lib.EqualFold objectName name = false := by simpa using h
      simp [h1, ih]

theorem RemoveObjectName_names (lib : Strings) (g : Globals) (name : String) :
    (RemoveObjectName lib g name).validObjectNames =
      g.validObjectNames.filter (fun objectName => !lib.EqualFold objectName name) := by
  unfold RemoveObjectName
  simp only
  rw [removeLoop_eq_filter]
  rfl

/-! ## Claims C15, C16 and C17 -/

/-- C15: `AddObjectName` appends without removing duplicates: for every registry and
every argument list the registry afterwards is the old one followed by the arguments
(the old one when there are none), so a name is supported afterwards if and only if
it was supported before or is among the arguments, and a supported name stays
supported; the depth limit is not touched. -/
theorem C15_add_appends (g : Globals) (names : List String) :
    (AddObjectName g names).validObjectNames = g.validObjectNames ++ names ∧
      AddObjectName g [] = g ∧
      (AddObjectName g names).maxDepthLimit = g.maxDepthLimit ∧
      (∀ key, isSupported (AddObjectName g names) key = none ↔
        (isSupported g key = none ∨ key ∈ names)) ∧
      (∀ key, isSupported g key = none → isSupported (AddObjectName g names) key = none) := by
  have hkey : ∀ key, isSupported (AddObjectName g names) key = none ↔
      (isSupported g key = none ∨ key ∈ names) := by
    intro key
    rw [isSupported_eq_none_iff, isSupported_eq_none_iff, AddObjectName_names,
      List.mem_append]
  refine ⟨AddObjectName_names g names, by rfl, ?_, hkey, fun key h => (hkey key).mpr (Or.inl h)⟩
  unfold AddObjectName
  split <;> rfl

/-- C16: `RemoveObjectName` removes the entries equal to its argument under case
folding and nothing else: for every registry and name the registry afterwards is the
list, in the original order, of the entries that `strings.EqualFold` does not equate
with the name.  So every entry left differs from the name under case folding, every
entry that differs is left (as often as it occurred), the name itself is not supported
afterwards, and when no entry matches the registry is as it was; the depth limit is
not touched. -/
theorem C16_remove_filters (lib : Strings) (g : Globals) (name : String) :
    (RemoveObjectName lib g name).validObjectNames =
        g.validObjectNames.filter (fun objectName => !lib.EqualFold objectName name) ∧
      List.Sublist (RemoveObjectName lib g name).validObjectNames g.validObjectNames ∧
      (∀ x ∈ (RemoveObjectName lib g name).validObjectNames, lib.EqualFold x name = false) ∧
      (∀ x, lib.EqualFold x name = false →
        List.count x (RemoveObjectName lib g name).validObjectNames =
          List.count x g.validObjectNames) ∧
      isSupported (RemoveObjectName lib g name) name =
        some (Err.object (ObjectErr.notFound name)) ∧
      ((∀ x ∈ g.validObjectNames, lib.EqualFold x name = false) →
        (RemoveObjectName lib g name).validObjectNames = g.validObjectNames) ∧
      (RemoveObjectName lib g name).maxDepthLimit = g.maxDepthLimit := by
  have hnames := RemoveObjectName_names lib g name
  refine ⟨hnames, ?_, ?_, ?_, ?_, ?_, by rfl⟩
  · rw [hnames]
    exact List.filter_sublist _
  · intro x hx
    rw [hnames, List.mem_filter] at hx
    simpa using hx.2
  · intro x hx
    rw [hnames, List.count_filter]
    simp [hx]
  · apply isSupported_of_not_mem
    rw [hnames, List.mem_filter]
    intro h
    have := h.2
    rw [lib.equalFold_refl name] at this
    cases this
  · intro h
    rw [hnames, List.filter_eq_self]
    intro x hx
    simp [h x hx]

/-- C16 with the case folding of ASCII letters: removing `USER` from the registry
`user, or, User, user` leaves `or`, and removing `and` leaves the registry as it was. -/
theorem C16_remove_filters_witness :
    (RemoveObjectName Strings.ascii duplicateGlobals "USER").validObjectNames = ["or"] ∧
      isSupported (RemoveObjectName Strings.ascii duplicateGlobals "USER") "USER" =
        some (Err.object (ObjectErr.notFound "USER")) ∧
      (RemoveObjectName Strings.ascii duplicateGlobals "and").validObjectNames =
        duplicateGlobals.validObjectNames :=
  ⟨(C16_remove_filters Strings.ascii duplicateGlobals "USER").1.trans (by decide),
   (C16_remove_filters Strings.ascii duplicateGlobals "USER").2.2.2.2.1,
   (C16_remove_filters Strings.ascii duplicateGlobals "and").2.2.2.2.2.1 (by decide)⟩

/-- C17: `isSupported` is an exact membership test: for every registry and name it
returns no error if and only if some entry is the very same string, and `ErrObjectNotFound`
for the name otherwise.  So a name that equals an entry only under case folding, and
no entry exactly, is not supported, although `RemoveObjectName` called with it removes
that entry. -/
theorem C17_exact_lookup (lib : Strings) (g : Globals) (name : String) :
    (isSupported g name = none ↔ name ∈ g.validObjectNames) ∧
      (name ∉ g.validObjectNames →
        isSupported g name = some (Err.object (ObjectErr.notFound name)) ∧
        errorsIs (Err.object (ObjectErr.notFound name)) Sentinel.ErrObjectNotFound = true) ∧
      (∀ entry ∈ g.validObjectNames, lib.EqualFold entry name = true →
        name ∉ g.validObjectNames →
        isSupported g name = some (Err.object (ObjectErr.notFound name)) ∧
        entry ∉ (RemoveObjectName lib g name).validObjectNames) := by
  refine ⟨isSupported_eq_none_iff g name,
    fun h => ⟨isSupported_of_not_mem g name h, by rfl⟩, ?_⟩
  intro entry _ hfold hnot
  refine ⟨isSupported_of_not_mem g name hnot, ?_⟩
  rw [RemoveObjectName_names, List.mem_filter]
  intro h
  have := h.2
  rw [hfold] at this
  cases this

/-- C17 with the case folding of ASCII letters and the registry of the tests: `user`
is supported, `User` is not, and removing `User` removes the entry `user`. -/
theorem C17_exact_lookup_witness :
    "user" ∈ testGlobals.validObjectNames ∧ Strings.ascii.EqualFold "user" "User" = true ∧
      "User" ∉ testGlobals.validObjectNames ∧
      isSupported testGlobals "User" = some (Err.object (ObjectErr.notFound "User")) ∧
      "user" ∉ (RemoveObjectName Strings.ascii testGlobals "User").validObjectNames ∧
      isSupported testGlobals "user" = none :=
  ⟨by decide, by decide, by decide,
   ((C17_exact_lookup Strings.ascii testGlobals "User").2.2 "user" (by decide) (by decide)
      (by decide)).1,
   ((C17_exact_lookup Strings.ascii testGlobals "User").2.2 "user" (by decide) (by decide)
      (by decide)).2,
   (C17_exact_lookup Strings.ascii testGlobals "user").1.mpr (by decide)⟩

/-! ## Maps with several keys -/

/-- The node after the loop of `parseObjectWithArguments` over registered keys: name
and arguments are those of the entry visited last. -/
theorem rangeObjectObject_all (g : Globals) (objectObject : List (String × Bytes))
    (last : String × Bytes) (hk : ∀ e ∈ objectObject, e.1 ∈ g.validObjectNames)
    (hlast : objectObject.getLast? = some last) :
    ∀ parent : Object,
      rangeObjectObject g parent objectObject =
        ({ parent with Name := last.1, Arguments := String.mk last.2 }, none) := by
  induction objectObject with
  | nil => cases hlast
  | cons entry rest ih =>
    intro parent
    obtain ⟨objectName, arguments⟩ := entry
    rw [rangeObjectObject, isSupported_of_mem g objectName (hk _ (List.mem_cons_self _ _))]
    simp only
    cases rest with
    | nil =>
      simp only [List.getLast?_singleton, Option.some.injEq] at hlast
      subst hlast
      rfl
    | cons e2 rest2 =>
      rw [List.getLast?_cons_cons] at hlast
      rw [ih (fun e he => hk e (List.mem_cons_of_mem _ he)) hlast]

/-- The node after the loop of `parseObjectWithChildren` over registered keys whose
children all parse: the name is that of the entry visited last, and the children of
all entries are appended in the order of the visit. -/
theorem rangeListObject_all (g : Globals) (listObject : List (String × List RawMessage))
    (last : String × List RawMessage) (hk : ∀ e ∈ listObject, e.1 ∈ g.validObjectNames)
    (hlast : listObject.getLast? = some last) :
    ∀ parent : Object,
      (∀ e ∈ listObject, ∀ c ∈ e.2,
        (parseObject g (Object.new (parent.Level + 1)) c).2 = none) →
      rangeListObject g parent listObject =
        ({ parent with
            Name := last.1,
            Children := parent.Children ++
              (listObject.flatMap (fun e => e.2)).map
                (fun c => (parseObject g (Object.new (parent.Level + 1)) c).1) },
         none) := by
  induction listObject with
  | nil => cases hlast
  | cons entry rest ih =>
    intro parent hok
    obtain ⟨objectName, children⟩ := entry
    rw [rangeListObject, isSupported_of_mem g objectName (hk _ (List.mem_cons_self _ _))]
    simp only
    rw [rangeChildren_all_ok g children { parent with Name := objectName }
      (fun c hc => hok (objectName, children) (List.mem_cons_self _ _) c hc)]
    simp only
    cases rest with
    | nil =>
      simp only [List.getLast?_singleton, Option.some.injEq] at hlast
      subst hlast
      simp [rangeListObject]
    | cons e2 rest2 =>
      rw [List.getLast?_cons_cons] at hlast
      have hrest := ih (fun e he => hk e (List.mem_cons_of_mem _ he)) hlast
        { Name := objectName, Level := parent.Level,
          Children := parent.Children ++
            List.map (fun c => (parseObject g (Object.new (parent.Level + 1)) c).1) children,
          Arguments := parent.Arguments }
        (fun e he c hc => hok e (List.mem_cons_of_mem _ he) c hc)
      rw [hrest]
      simp

/-! ## Claim C18 -/

/-- A map that does not decode as a map of lists and decodes as a map of raw values,
all keys registered: the node takes the key visited last as name and the text of its
value as arguments, and nothing else of the node changes. -/
theorem parseObject_arguments_last (g : Globals) (parent : Object) (b : RawMessage)
    (e0 je : JsonErr) (objectObject : List (String × Bytes)) (last : String × Bytes)
    (hl : ¬ parent.Level > g.maxDepthLimit) (hs : b.asString = Except.error e0)
    (hm : b.asListMap = Except.error je) (hr : b.asRawMap = Except.ok objectObject)
    (hlast : objectObject.getLast? = some last)
    (hk : ∀ e ∈ objectObject, e.1 ∈ g.validObjectNames) :
    parseObject g parent b =
      ({ parent with Name := last.1, Arguments := String.mk last.2 }, none) := by
  rw [parseObject_not_string g parent b e0 hl hs]
  unfold parseObjectWithChildren
  rw [hm, parseObjectWithChildrenOf]
  simp only [errorsIs, Bool.false_eq_true, if_false]
  unfold parseObjectWithArguments
  rw [hr]
  exact rangeObjectObject_all g objectObject last hk hlast parent

/-- C18, as amended: in a map with several registered keys, visited in any order, the
name of the node is the key visited last.  In the shape with children the children of
every key are kept: when all of them parse, the node has, after the children it had,
those of all keys in the order of the visit.  In the shape with arguments, which is
that of every map that does not decode as a map of lists, the arguments are the text
of the value of the key visited last, whatever that value is, and no child is added;
the node is the one that this key alone gives when this key alone is of the shape
with arguments too. -/
theorem C18_last_key (g : Globals) (parent : Object) (b : RawMessage) (e0 : JsonErr)
    (hl : ¬ parent.Level > g.maxDepthLimit) (hs : b.asString = Except.error e0) :
    (∀ (listObject : List (String × List RawMessage)) (last : String × List RawMessage),
        b.asListMap = Except.ok listObject → listObject.getLast? = some last →
        (∀ e ∈ listObject, e.1 ∈ g.validObjectNames) →
        (∀ e ∈ listObject, ∀ c ∈ e.2,
          (parseObject g (Object.new (parent.Level + 1)) c).2 = none) →
        parseObject g parent b =
          ({ parent with
              Name := last.1,
              Children := parent.Children ++
                (listObject.flatMap (fun e => e.2)).map
                  (fun c => (parseObject g (Object.new (parent.Level + 1)) c).1) },
           none)) ∧
      (∀ (je : JsonErr) (objectObject : List (String × Bytes)) (last : String × Bytes),
        b.asListMap = Except.error je → b.asRawMap = Except.ok objectObject →
        objectObject.getLast? = some last →
        (∀ e ∈ objectObject, e.1 ∈ g.validObjectNames) →
        parseObject g parent b =
          ({ parent with Name := last.1, Arguments := String.mk last.2 }, none)) ∧
      (∀ (je : JsonErr) (objectObject : List (String × Bytes)) (last : String × Bytes)
          (alone : RawMessage) (e1 je1 : JsonErr),
        b.asListMap = Except.error je → b.asRawMap = Except.ok objectObject →
        objectObject.getLast? = some last →
        (∀ e ∈ objectObject, e.1 ∈ g.validObjectNames) →
        alone.asString = Except.error e1 → alone.asListMap = Except.error je1 →
        alone.asRawMap = Except.ok [last] →
        parseObject g parent b = parseObject g parent alone) := by
  refine ⟨?_, ?_, ?_⟩
  · intro listObject last hm hlast hk hok
    rw [parseObject_not_string g parent b e0 hl hs]
    unfold parseObjectWithChildren
    rw [hm, parseObjectWithChildrenOf, rangeListObject_all g listObject last hk hlast parent hok]
  · intro je objectObject last hm hr hlast hk
    exact parseObject_arguments_last g parent b e0 je objectObject last hl hs hm hr hlast hk
  · intro je objectObject last alone e1 je1 hm hr hlast hk hs1 hm1 hr1
    have hmem : last ∈ objectObject := List.mem_of_mem_getLast? (by rw [hlast]; rfl)
    rw [parseObject_arguments_last g parent b e0 je objectObject last hl hs hm hr hlast hk,
      parseObject_arguments_last g parent alone e1 je1 [last] last hl hs1 hm1 hr1 rfl
        (fun e he => by
          rw [List.mem_singleton] at he
          rw [he]
          exact hk last hmem)]

/-- C18 as stated fails for both shapes.  With the keys of
`{"and":["user"],"or":["service"]}` visited in this order, the node has the name of
the last key, `or`, and the children of both keys, while the last key alone gives the
one child `service`.  With the keys of `{"location":{"region":"uk"},"and":["user"]}`
visited in this order, the map is of the shape with arguments and the node has the
name `and`, the arguments `["user"]` and no child, while the last key alone gives the
child `user` and no arguments. -/
theorem C18_last_key_counterexample :
    ParseObjectFromJSON testGlobals MapOrder.source twoListsInput =
        Run.ret (some { Name := "or", Level := 0,
                        Children := [{ Name := "user", Level := 1, Children := [], Arguments := "" },
                                     { Name := "service", Level := 1, Children := [], Arguments := "" }],
                        Arguments := "" }, none) ∧
      ParseObjectFromJSON testGlobals MapOrder.source lastListInput =
        Run.ret (some { Name := "or", Level := 0,
                        Children := [{ Name := "service", Level := 1, Children := [], Arguments := "" }],
                        Arguments := "" }, none) ∧
      ParseObjectFromJSON testGlobals MapOrder.source twoListsInput ≠
        ParseObjectFromJSON testGlobals MapOrder.source lastListInput ∧
      ParseObjectFromJSON testGlobals MapOrder.source mixedInput =
        Run.ret (some { Name := "and", Level := 0, Children := [],
                        Arguments := "[\"user\"]" }, none) ∧
      ParseObjectFromJSON testGlobals MapOrder.source lastOfMixedInput =
        Run.ret (some { Name := "and", Level := 0,
                        Children := [{ Name := "user", Level := 1, Children := [], Arguments := "" }],
                        Arguments := "" }, none) ∧
      ParseObjectFromJSON testGlobals MapOrder.source mixedInput ≠
        ParseObjectFromJSON testGlobals MapOrder.source lastOfMixedInput := by
  have h1 : ParseObjectFromJSON testGlobals MapOrder.source twoListsInput =
        Run.ret (some { Name := "or", Level := 0,
                        Children := [{ Name := "user", Level := 1, Children := [], Arguments := "" },
                                     { Name := "service", Level := 1, Children := [], Arguments := "" }],
                        Arguments := "" }, none) := by rfl
  have h2 : ParseObjectFromJSON testGlobals MapOrder.source lastListInput =
        Run.ret (some { Name := "or", Level := 0,
                        Children := [{ Name := "service", Level := 1, Children := [], Arguments := "" }],
                        Arguments := "" }, none) := by rfl
  have h3 : ParseObjectFromJSON testGlobals MapOrder.source mixedInput =
        Run.ret (some { Name := "and", Level := 0, Children := [],
                        Arguments := "[\"user\"]" }, none) := by rfl
  have h4 : ParseObjectFromJSON testGlobals MapOrder.source lastOfMixedInput =
        Run.ret (some { Name := "and", Level := 0,
                        Children := [{ Name := "user", Level := 1, Children := [], Arguments := "" }],
                        Arguments := "" }, none) := by rfl
  refine ⟨h1, h2, ?_, h3, h4, ?_⟩
  · rw [h1, h2]
    intro h
    simp at h
  · rw [h3, h4]
    intro h
    simp at h

/-- C18 at `{"and":["user"],"or":["service"]}` with the keys visited in the order of
the input and in the opposite order, at
`{"location":{"region":"uk"},"user":{"id":1}}` and at
`{"location":{"region":"uk"},"and":["user"]}` in the order of the input, and at the
former against its last key alone, `{"user":{"id":1}}`. -/
theorem C18_last_key_witness :
    parseObject testGlobals (Object.new 0) (unmarshal MapOrder.source twoListsInput) =
        ({ Name := "or", Level := 0,
           Children := [{ Name := "user", Level := 1, Children := [], Arguments := "" },
                        { Name := "service", Level := 1, Children := [], Arguments := "" }],
           Arguments := "" }, none) ∧
      parseObject testGlobals (Object.new 0) (unmarshal MapOrder.reversed twoListsInput) =
        ({ Name := "and", Level := 0,
           Children := [{ Name := "service", Level := 1, Children := [], Arguments := "" },
                        { Name := "user", Level := 1, Children := [], Arguments := "" }],
           Arguments := "" }, none) ∧
      parseObject testGlobals (Object.new 0) (unmarshal MapOrder.source twoObjectsInput) =
        ({ Name := "user", Level := 0, Children := [], Arguments := "\x7b\"id\":1\x7d" },
          none) ∧
      parseObject testGlobals (Object.new 0) (unmarshal MapOrder.source mixedInput) =
        ({ Name := "and", Level := 0, Children := [], Arguments := "[\"user\"]" }, none) ∧
      parseObject testGlobals (Object.new 0) (unmarshal MapOrder.source twoObjectsInput) =
        parseObject testGlobals (Object.new 0) (unmarshal MapOrder.source lastObjectInput) :=
  ⟨((C18_last_key testGlobals (Object.new 0) (unmarshal MapOrder.source twoListsInput)
        (JsonErr.unmarshalTypeError "object" "string") (by decide) (by rfl)).1
      _ _ (by rfl) (by rfl) (by decide) (by decide)).trans (by rfl),
   ((C18_last_key testGlobals (Object.new 0) (unmarshal MapOrder.reversed twoListsInput)
        (JsonErr.unmarshalTypeError "object" "string") (by decide) (by rfl)).1
      _ _ (by rfl) (by rfl) (by decide) (by decide)).trans (by rfl),
   ((C18_last_key testGlobals (Object.new 0) (unmarshal MapOrder.source twoObjectsInput)
        (JsonErr.unmarshalTypeError "object" "string") (by decide) (by rfl)).2.1
      _ _ _ (by rfl) (by rfl) (by rfl) (by decide)).trans (by rfl),
   ((C18_last_key testGlobals (Object.new 0) (unmarshal MapOrder.source mixedInput)
        (JsonErr.unmarshalTypeError "object" "string") (by decide) (by rfl)).2.1
      _ _ _ (by rfl) (by rfl) (by rfl) (by decide)).trans (by rfl),
   (C18_last_key testGlobals (Object.new 0) (unmarshal MapOrder.source twoObjectsInput)
        (JsonErr.unmarshalTypeError "object" "string") (by decide) (by rfl)).2.2
      _ _ _ (unmarshal MapOrder.source lastObjectInput) _ _
      (by rfl) (by rfl) (by rfl) (by decide) (by rfl) (by rfl) (by rfl)⟩

/-! ## Claims C19 and C20 -/

/-- One level below the limit no list has a child: the first child is above the limit. -/
theorem parseObject_list_at_limit (g : Globals) (ord : MapOrder) (parent : Object)
    (k : String) (t : Bytes) (c : Bytes × JValue) (cs : List (Bytes × JValue))
    (hl : parent.Level = g.maxDepthLimit) (hk : k ∈ g.validObjectNames) :
    (parseObject g parent (decode ord (JValue.object [(k, t, JValue.array (c :: cs))]))).2 =
      some (Err.object ObjectErr.maxDepthLimitExceeded) := by
  obtain ⟨tc, vc⟩ := c
  refine parseObject_child_error g parent _ _ k [] (decode ord vc) (decodeElems ord cs) _
    (by omega) (decode_object_asString ord _) ?_ hk (fun x hx => by cases hx) ?_ (by rfl)
  · rw [decode_object_asListMap, decodeElems]
    rfl
  · rw [parseObject_exceeded g _ _ (by simp only [Object.new]; omega)]

/-- A registered string, other than the empty one, parses at the root to a node of
level 0 when the limit is not below 0. -/
theorem ParseObjectFromJSON_string (g : Globals) (ord : MapOrder) (b : Bytes) (x : String)
    (hm : 0 ≤ g.maxDepthLimit) (hx : x ≠ "") (hreg : x ∈ g.validObjectNames)
    (hb : scan b = some (JValue.string x)) :
    ParseObjectFromJSON g ord b =
      Run.ret (some { Name := x, Level := 0, Children := [], Arguments := "" }, none) := by
  have hvalid : isObjectValid b = Run.ret none :=
    isObjectValid_of_scan b _ hb (by simp) (by simpa using hx) (by simp)
  have hlevel : ¬ (Object.new 0).Level > g.maxDepthLimit := by
    simp only [Object.new]
    omega
  unfold ParseObjectFromJSON
  rw [hvalid, unmarshal_of_scan ord b _ hb,
    parseObject_string_ok g (Object.new 0) _ x hlevel (by rw [decode, RawMessage.asString]) hreg]
  rfl

/-- C19, as amended: `SetMaxDepthLimit` takes any integer and changes nothing else.
With a limit of 0 or less every input `{k: [c1..cn]}` with `k` registered and at least
one element fails with `ErrMaxDepthLimitExceeded`.  With the limit 0 the root is still
accepted: a registered non-empty string parses to a node of level 0.  With a limit
below 0 the root is rejected as well: every input that passes `isObjectValid` fails
with `ErrMaxDepthLimitExceeded`. -/
theorem C19_limit_at_most_zero (g : Globals) (ord : MapOrder) (limit : Int)
    (hlimit : limit ≤ 0) :
    (SetMaxDepthLimit g limit).maxDepthLimit = limit ∧
      (SetMaxDepthLimit g limit).validObjectNames = g.validObjectNames ∧
      (∀ (b : Bytes) (k : String) (t : Bytes) (c : Bytes × JValue) (cs : List (Bytes × JValue)),
        k ∈ g.validObjectNames →
        scan b = some (JValue.object [(k, t, JValue.array (c :: cs))]) →
        ParseObjectFromJSON (SetMaxDepthLimit g limit) ord b =
          Run.ret (none, some (Err.object ObjectErr.maxDepthLimitExceeded))) ∧
      (limit = 0 → ∀ (b : Bytes) (x : String), x ≠ "" → x ∈ g.validObjectNames →
        scan b = some (JValue.string x) →
        ParseObjectFromJSON (SetMaxDepthLimit g limit) ord b =
          Run.ret (some { Name := x, Level := 0, Children := [], Arguments := "" }, none)) ∧
      (limit < 0 → ∀ b : Bytes, isObjectValid b = Run.ret none →
        ParseObjectFromJSON (SetMaxDepthLimit g limit) ord b =
          Run.ret (none, some (Err.object ObjectErr.maxDepthLimitExceeded))) := by
  have hbelow : limit < 0 → ∀ b : Bytes, isObjectValid b = Run.ret none →
      ParseObjectFromJSON (SetMaxDepthLimit g limit) ord b =
        Run.ret (none, some (Err.object ObjectErr.maxDepthLimitExceeded)) := by
    intro hneg b hv
    unfold ParseObjectFromJSON
    rw [hv, parseObject_exceeded (SetMaxDepthLimit g limit) (Object.new 0) _
      (by simp only [Object.new, SetMaxDepthLimit]; omega)]
  refine ⟨rfl, rfl, ?_, ?_, hbelow⟩
  · intro b k t c cs hk hb
    have hv : isObjectValid b = Run.ret none :=
      isObjectValid_of_scan b _ hb (by simp) (by simp) (by simp)
    by_cases hneg : limit < 0
    · exact hbelow hneg b hv
    · have hzero : limit = 0 := by omega
      have hp := parseObject_list_at_limit (SetMaxDepthLimit g limit) ord (Object.new 0) k t c cs
        (by simp only [Object.new, SetMaxDepthLimit]; omega) hk
      unfold ParseObjectFromJSON
      rw [hv, unmarshal_of_scan ord b _ hb]
      rcases hr : parseObject (SetMaxDepthLimit g limit) (Object.new 0)
        (decode ord (JValue.object [(k, t, JValue.array (c :: cs))])) with ⟨obj, _ | e⟩
      · rw [hr] at hp
        cases hp
      · rw [hr] at hp
        simp only [Option.some.injEq] at hp
        subst hp
        rfl
  · intro hzero b x hx hreg hb
    exact ParseObjectFromJSON_string (SetMaxDepthLimit g limit) ord b x
      (by simp only [SetMaxDepthLimit]; omega) hx hreg hb

/-- C19 as stated fails at the limit -1: the registered string `user` does not parse
to a node of level 0, the root itself is above the limit. -/
theorem C19_limit_at_most_zero_counterexample :
    (-1 : Int) ≤ 0 ∧ "user" ∈ testGlobals.validObjectNames ∧
      ParseObjectFromJSON (SetMaxDepthLimit testGlobals (-1)) MapOrder.source
          "\"user\"".toList =
        Run.ret (none, some (Err.object ObjectErr.maxDepthLimitExceeded)) :=
  ⟨by decide, by decide, by rfl⟩

/-- C19 at the limit 0, for the inputs of the tests `rule list format` and
`rule string format`, and at the limit -1 for the latter. -/
theorem C19_limit_at_most_zero_witness :
    ParseObjectFromJSON (SetMaxDepthLimit testGlobals 0) MapOrder.source listInput =
        Run.ret (none, some (Err.object ObjectErr.maxDepthLimitExceeded)) ∧
      ParseObjectFromJSON (SetMaxDepthLimit testGlobals 0) MapOrder.source
          "\"user\"".toList =
        Run.ret (some { Name := "user", Level := 0, Children := [], Arguments := "" }, none) ∧
      ParseObjectFromJSON (SetMaxDepthLimit testGlobals (-1)) MapOrder.source
          "\"user\"".toList =
        Run.ret (none, some (Err.object ObjectErr.maxDepthLimitExceeded)) :=
  ⟨(C19_limit_at_most_zero testGlobals MapOrder.source 0 (by decide)).2.2.1 listInput "and"
      "[\"user\",\"service\"]".toList ("\"user\"".toList, JValue.string "user")
      [("\"service\"".toList, JValue.string "service")] (by decide) (by rfl),
   (C19_limit_at_most_zero testGlobals MapOrder.source 0 (by decide)).2.2.2.1 rfl
      "\"user\"".toList "user" (by decide) (by decide) (by rfl),
   (C19_limit_at_most_zero testGlobals MapOrder.source (-1) (by decide)).2.2.2.2 (by decide)
      "\"user\"".toList (by rfl)⟩

/-- C20, as amended: the classification `ErrObjectUndefined` is for the root only.
For every registry without the empty name, every registered key `k` and every node
below the maximum depth, parsing a single-key object `{k: [...]}` whose list holds,
after elements that all parse, the literal `null` or the string `""` fails with
`ErrObjectNotFound` for the empty name: that element decodes as a string with the
empty name.  At the root `ParseObjectFromJSON` returns no node and this error, which
is not of kind `ErrObjectUndefined`. -/
theorem C20_null_child_not_found (g : Globals) (ord : MapOrder) (parent : Object) (b : Bytes)
    (k : String) (t : Bytes) (before : List (Bytes × JValue)) (tc : Bytes) (child : JValue)
    (after : List (Bytes × JValue))
    (hempty : "" ∉ g.validObjectNames) (hk : k ∈ g.validObjectNames)
    (hl : parent.Level < g.maxDepthLimit)
    (hb : scan b = some (JValue.object [(k, t, JValue.array (before ++ (tc, child) :: after))]))
    (hchild : child = JValue.null ∨ child = JValue.string "")
    (hok : ∀ x ∈ before,
      (parseObject g (Object.new (parent.Level + 1)) (unmarshal ord x.1)).2 = none) :
    (unmarshal ord tc).asString = Except.ok "" ∧
      (parseObject g parent (unmarshal ord b)).2 =
        some (Err.object (ObjectErr.notFound "")) ∧
      (ObjectErr.notFound "").Error = "'' parameter not found" ∧
      errorsIs (Err.object (ObjectErr.notFound "")) Sentinel.ErrObjectNotFound = true ∧
      errorsIs (Err.object (ObjectErr.notFound "")) Sentinel.ErrObjectUndefined = false ∧
      (parent.Level = 0 →
        ParseObjectFromJSON g ord b =
          Run.ret (none, some (Err.object (ObjectErr.notFound "")))) := by
  have ht : scan t = some (JValue.array (before ++ (tc, child) :: after)) :=
    (scan_childTexts ord b _ hb (t, _) (by simp [childTexts])).2.1
  have htexts : ∀ e ∈ before ++ (tc, child) :: after, unmarshal ord e.1 = decode ord e.2 :=
    fun e he => (scan_childTexts ord t _ ht e he).2.2
  have htc : unmarshal ord tc = decode ord child := htexts (tc, child) (by simp)
  have hstr : (decode ord child).asString = Except.ok "" := by
    rcases hchild with rfl | rfl <;> rw [decode, RawMessage.asString]
  have hparse : ∀ p : Object, p.Level = parent.Level →
      (parseObject g p (unmarshal ord b)).2 = some (Err.object (ObjectErr.notFound "")) := by
    intro p hp
    rw [unmarshal_of_scan ord b _ hb]
    refine parseObject_child_error g p _ _ k (decodeElems ord before) (decode ord child)
      (decodeElems ord after) _ (by omega) (decode_object_asString ord _) ?_ hk ?_ ?_ (by rfl)
    · rw [decode_object_asListMap, decodeElems_eq_map, decodeElems_eq_map, decodeElems_eq_map]
      simp
    · intro x hx
      rw [decodeElems_eq_map] at hx
      obtain ⟨x1, hx1, rfl⟩ := List.mem_map.mp hx
      rw [hp, ← htexts x1 (List.mem_append_left _ hx1)]
      exact hok x1 hx1
    · rw [parseObject_string_not_found g _ _ "" (by simp only [Object.new]; omega) hstr hempty]
  refine ⟨by rw [htc]; exact hstr, hparse parent rfl, by rfl, by rfl, by rfl, ?_⟩
  intro hroot
  have hv : isObjectValid b = Run.ret none :=
    isObjectValid_of_scan b _ hb (by simp) (by simp) (by simp)
  have hp := hparse (Object.new 0) hroot.symm
  unfold ParseObjectFromJSON
  rw [hv]
  rcases hr : parseObject g (Object.new 0) (unmarshal ord b) with ⟨obj, _ | e⟩
  · rw [hr] at hp
    cases hp
  · rw [hr] at hp
    simp only [Option.some.injEq] at hp
    subst hp
    rfl

/-- C20 as stated fails at `{"and":["nope",null]}`: the registry has no empty name,
`and` is registered, the root is below the maximum depth and the list holds the
literal `null`, but the parse fails for the element before it, with
`ErrObjectNotFound` for `nope` and not for the empty name. -/
theorem C20_null_child_not_found_counterexample :
    "" ∉ testGlobals.validObjectNames ∧ "and" ∈ testGlobals.validObjectNames ∧
      (0 : Int) < testGlobals.maxDepthLimit ∧
      scan unknownThenNullInput =
        some (JValue.object [("and", "[\"nope\",null]".toList,
          JValue.array [("\"nope\"".toList, JValue.string "nope"),
                        ("null".toList, JValue.null)])]) ∧
      ParseObjectFromJSON testGlobals MapOrder.source unknownThenNullInput =
        Run.ret (none, some (Err.object (ObjectErr.notFound "nope"))) ∧
      ParseObjectFromJSON testGlobals MapOrder.source unknownThenNullInput ≠
        Run.ret (none, some (Err.object (ObjectErr.notFound ""))) := by
  have h : ParseObjectFromJSON testGlobals MapOrder.source unknownThenNullInput =
      Run.ret (none, some (Err.object (ObjectErr.notFound "nope"))) := by rfl
  refine ⟨by decide, by decide, by decide, by rfl, h, ?_⟩
  rw [h]
  intro hh
  simp at hh

/-- C20 at the inputs `{"and":[null]}` and `{"and":["user",""]}`, with the registry of
the tests. -/
theorem C20_null_child_not_found_witness :
    ParseObjectFromJSON testGlobals MapOrder.source nullChildInput =
        Run.ret (none, some (Err.object (ObjectErr.notFound ""))) ∧
      ParseObjectFromJSON testGlobals MapOrder.source emptyChildInput =
        Run.ret (none, some (Err.object (ObjectErr.notFound ""))) :=
  ⟨(C20_null_child_not_found testGlobals MapOrder.source (Object.new 0)
      nullChildInput "and" "[null]".toList [] "null".toList JValue.null []
      (by decide) (by decide) (by decide) (by rfl) (Or.inl rfl)
      (fun x hx => by cases hx)).2.2.2.2.2 rfl,
   (C20_null_child_not_found testGlobals MapOrder.source (Object.new 0)
      emptyChildInput "and" "[\"user\",\"\"]".toList
      [("\"user\"".toList, JValue.string "user")] "\"\"".toList (JValue.string "") []
      (by decide) (by decide) (by decide) (by rfl) (Or.inr rfl)
      (by
        intro x hx
        simp only [List.mem_singleton] at hx
        subst hx
        rfl)).2.2.2.2.2 rfl⟩

end Yop
